import Mathlib

/-!
Verification of the BidGenerate pipeline's hard core: the LLM-call caching
layer (`src/caching.py`), the retry/model-rotation client (`llm_client.py`),
the knowledge-base ranking (`src/kb_search.py`), the content merger
(`src/content_merge.py`) and the fallback Markdown→LaTeX converter
(`src/latex_renderer.py`).

External collaborators (the DashScope chat API, Python's `json` module and
`hashlib.sha256`) are modelled as oracle functions carried in an `Env`
record; everything the repository itself computes (string munging, cache
bookkeeping, the retry loop, sorting, section assembly, the line-based
LaTeX fixups) is embedded concretely, following the Python source.
Python strings are modelled as Lean `String`/`List Char` (Python indexes
and slices by code point, as `List Char` does); Python `list.sort` with
`reverse=True` is modelled by the stable `List.mergeSort`.
-/

namespace BidSpec

/-! ## Basic string/list utilities shared by the embeddings -/

/-- Substring test on character lists: some suffix of the haystack starts
with the needle.  Models Python's `needle in line`. -/
def hasSubstr (needle : List Char) : List Char → Bool
  | [] => needle.isEmpty
  | c :: t => needle.isPrefixOf (c :: t) || hasSubstr needle t

/-- Python `str.strip()` (whitespace from both ends). -/
def pyStrip (l : List Char) : List Char :=
  ((l.dropWhile Char.isWhitespace).reverse.dropWhile Char.isWhitespace).reverse

/-- Python `s.split(sep)` for a single-character separator: always returns a
nonempty list of (possibly empty) chunks. -/
def splitOnChar (sep : Char) : List Char → List (List Char)
  | [] => [[]]
  | c :: t =>
    let r := splitOnChar sep t
    if c = sep then [] :: r
    else
      match r with
      | [] => [[c]]
      | h :: t' => (c :: h) :: t'

/-- Python `sep.join(lines)` for a single-character separator. -/
def joinLines (sep : Char) : List (List Char) → List Char
  | [] => []
  | [l] => l
  | l :: ls => l ++ sep :: joinLines sep ls

/-- Python `str.replace(pat, rep)`: left-to-right, non-overlapping. -/
def replaceList (pat rep : List Char) (l : List Char) : List Char :=
  match l with
  | [] => []
  | c :: t =>
    if h : pat.isPrefixOf (c :: t) ∧ pat ≠ [] then
      rep ++ replaceList pat rep ((c :: t).drop pat.length)
    else
      c :: replaceList pat rep t
  termination_by l.length
  decreasing_by
    · simp only [List.length_drop, List.length_cons]
      have hlen : 1 ≤ pat.length := by
        cases hp : pat with
        | nil => exact absurd hp h.2
        | cons a b => simp
      omega
    · simp

/-- Python `s.endsWith(pat)` on character lists. -/
def endsWithL (pat l : List Char) : Bool :=
  pat.reverse.isPrefixOf l.reverse

/-- Python `s.strip(c)` for a single strip character. -/
def stripChar (c : Char) (l : List Char) : List Char :=
  ((l.dropWhile (· = c)).reverse.dropWhile (· = c)).reverse

/-! ## Data model of a chat message and the oracle environment -/

/-- One chat message, the dict `{"role": ..., "content": ...}`. -/
structure Msg where
  role : String
  content : String
  deriving DecidableEq, Repr

/-- JSON values as produced by `json.loads` (numbers collapsed to `ℚ`). -/
inductive Json where
  | null
  | bool (b : Bool)
  | num (q : ℚ)
  | str (s : String)
  | arr (xs : List Json)
  | obj (fields : List (String × Json))

/-- External collaborators of the caching layer: the chat API, SHA-256,
JSON string escaping, `json.loads` and `json.dumps`.  The repository treats
all of them as black boxes, so they are oracle parameters here. -/
structure Env where
  chat : List Msg → String
  sha256 : String → String
  jsonEscape : String → String
  parse : String → Option Json
  dumps : Json → String

/-- Serialisation of one message by `json.dumps(msg, ensure_ascii=False,
sort_keys=True)`: with sorted keys, `content` precedes `role`. -/
def dumpsMsg (env : Env) (m : Msg) : String :=
  "\x7b\"content\": \"" ++ env.jsonEscape m.content ++ "\", \"role\": \"" ++
    env.jsonEscape m.role ++ "\"\x7d"

/-! ## LLMCache (src/caching.py): key, get, set -/

/-- The on-disk cache directory, modelled as an association list from file
key to stored text; the most recent write is found first. -/
abbrev LLMCache := List (String × String)

/-- LLMCache._key: SHA-256 over the ordered messages, each serialised with
sorted keys (incremental `update` per message equals hashing the
concatenation). -/
def cacheKey (env : Env) (messages : List Msg) : String :=
  env.sha256 (String.join (messages.map (dumpsMsg env)))

/-- LLMCache.get: read `<key>.json` if it exists. -/
def cacheGet (env : Env) (messages : List Msg) (cache : LLMCache) : Option String :=
  cache.lookup (cacheKey env messages)

/-- LLMCache.set: write `<key>.json`, overwriting a previous entry. -/
def cacheSet (env : Env) (messages : List Msg) (value : String) (cache : LLMCache) : LLMCache :=
  (cacheKey env messages, value) :: cache

/-- A `get` right after a `set` with the same messages finds the value just
written (the write lands in the file the lookup reads). -/
theorem cacheGet_cacheSet (env : Env) (messages : List Msg) (v : String) (c : LLMCache) :
    cacheGet env messages (cacheSet env messages v c) = some v := by
  simp [cacheGet, cacheSet, List.lookup]

/-- Claim C2 — in `LLMCache`, `get` after `set` on the same message list
returns the stored value; the key is a pure function of the ordered,
sorted-key-serialised messages, so equal message lists in the same order
always address the same cache entry. -/
theorem llmcache_get_set_roundtrip (env : Env) (msgs m₁ m₂ : List Msg) (v : String)
    (c : LLMCache) :
    cacheGet env msgs (cacheSet env msgs v c) = some v
      ∧ (m₁ = m₂ → cacheKey env m₁ = cacheKey env m₂)
      ∧ cacheKey env msgs = env.sha256 (String.join (msgs.map (dumpsMsg env))) :=
  ⟨cacheGet_cacheSet env msgs v c, fun h => by rw [h], rfl⟩

/-- Witness for C2 at a concrete environment, message list and cache. -/
theorem llmcache_get_set_roundtrip_witness :
    cacheGet ⟨fun _ => "", id, id, fun _ => none, fun _ => ""⟩ [⟨"user", "hi"⟩]
        (cacheSet ⟨fun _ => "", id, id, fun _ => none, fun _ => ""⟩ [⟨"user", "hi"⟩] "resp" [])
      = some "resp"
      ∧ ([⟨"user", "hi"⟩] = ([⟨"user", "hi"⟩] : List Msg) →
          cacheKey ⟨fun _ => "", id, id, fun _ => none, fun _ => ""⟩ [⟨"user", "hi"⟩]
            = cacheKey ⟨fun _ => "", id, id, fun _ => none, fun _ => ""⟩ [⟨"user", "hi"⟩])
      ∧ cacheKey ⟨fun _ => "", id, id, fun _ => none, fun _ => ""⟩ [⟨"user", "hi"⟩]
          = Env.sha256 ⟨fun _ => "", id, id, fun _ => none, fun _ => ""⟩
              (String.join ([⟨"user", "hi"⟩].map
                (dumpsMsg ⟨fun _ => "", id, id, fun _ => none, fun _ => ""⟩))) :=
  llmcache_get_set_roundtrip ⟨fun _ => "", id, id, fun _ => none, fun _ => ""⟩
    [⟨"user", "hi"⟩] [⟨"user", "hi"⟩] [⟨"user", "hi"⟩] "resp" []

/-! ## llm_json / llm_rewrite (src/caching.py) -/

/-- Message list built by both `llm_json` and `llm_rewrite`. -/
def mkMessages (system user : String) : List Msg :=
  [⟨"system", system⟩, ⟨"user", user⟩]

/-- Fence stripping done by `llm_json`: strip, drop a leading ` ```json `,
drop a trailing ` ``` `, strip again. -/
def stripFences (l : List Char) : List Char :=
  let t := pyStrip l
  let t := if ("```json".toList).isPrefixOf t then t.drop 7 else t
  let t := if endsWithL ("```".toList) t then t.take (t.length - 3) else t
  pyStrip t

/-- Index of the last occurrence of a character (Python `str.rfind`). -/
def lastIdxOf (c : Char) (l : List Char) : Option Nat :=
  match l.reverse.indexOf? c with
  | none => none
  | some i => some (l.length - 1 - i)

/-- Brace extraction of `llm_json`: the slice from the first `{` to the last
`}` inclusive, when `text.find('{') != -1` and `text.rfind('}') + 1` exceeds
it. -/
def extractJson (t : List Char) : Option (List Char) :=
  match t.indexOf? '\x7b', lastIdxOf '\x7d' t with
  | some s, some e => if s ≤ e then some ((t.drop s).take (e + 1 - s)) else none
  | _, _ => none

/-- Parse of the brace-extracted slice, `none` when there is no slice or
`json.loads` fails on it. -/
def braceParse (env : Env) (t : List Char) : Option Json :=
  match extractJson t with
  | some jt => env.parse (String.mk jt)
  | none => none

/-- The repair round-trip's messages, built from the original system prompt
and the (fence-stripped) first response. -/
def repairMessages (system : String) (strippedText : List Char) : List Msg :=
  [⟨"system", system ++ " IMPORTANT: Return ONLY valid JSON, no other text."⟩,
   ⟨"user", "The previous response was not valid JSON: " ++ String.mk strippedText ++
      ". Please return ONLY valid JSON, no explanations, no reasoning, no other text."⟩]

/-- The hard-coded default structure `llm_json` returns when the repair
round also fails:
`{"items": [{"id": "1", "title": "默认需求", "keywords": [], "source": "",
"notes": "", "weight": 1.0}]}`. -/
def default_data : Json :=
  Json.obj [("items", Json.arr [Json.obj
    [("id", Json.str "1"), ("title", Json.str "默认需求"), ("keywords", Json.arr []),
     ("source", Json.str ""), ("notes", Json.str ""), ("weight", Json.num 1)]])]

/-- The part of `llm_json` after the cache lookup: chat, strip fences, try
`json.loads` on the whole stripped text, then on the brace slice, then one
repair round with the same stripping/extraction, else the default.  The
third component counts `client.chat` invocations. -/
def llmJsonMiss (env : Env) (system user : String) (messages : List Msg)
    (cache : LLMCache) : Json × LLMCache × Nat :=
  let text := stripFences (env.chat messages).toList
  match env.parse (String.mk text) with
  | some data => (data, cacheSet env messages (env.dumps data) cache, 1)
  | none =>
    match braceParse env text with
    | some data => (data, cacheSet env messages (env.dumps data) cache, 1)
    | none =>
      let text2 := stripFences (env.chat (repairMessages system text)).toList
      match braceParse env text2 with
      | some data => (data, cacheSet env messages (env.dumps data) cache, 2)
      | none => (default_data, cacheSet env messages (env.dumps default_data) cache, 2)

/-- Function `llm_json` of src/caching.py.  A cached text that parses is
returned directly; a corrupt cached text is overwritten with `""` before
the fresh request. -/
def llm_json (env : Env) (system user : String) (cache : LLMCache) : Json × LLMCache × Nat :=
  let messages := mkMessages system user
  match cacheGet env messages cache with
  | some cached =>
    match env.parse cached with
    | some data => (data, cache, 0)
    | none => llmJsonMiss env system user messages (cacheSet env messages "" cache)
  | none => llmJsonMiss env system user messages cache

/-- Function `llm_rewrite` of src/caching.py. -/
def llm_rewrite (env : Env) (system user : String) (cache : LLMCache) : String × LLMCache × Nat :=
  let messages := mkMessages system user
  match cacheGet env messages cache with
  | some cached => (cached, cache, 0)
  | none =>
    let text := env.chat messages
    (text, cacheSet env messages text cache, 1)

/-- Concrete environment for the C1 counterexample: the chat oracle returns
a fence-wrapped JSON array, which `json.loads` accepts once the fences are
stripped (the raw response itself is not valid JSON). -/
def envC1 : Env where
  chat := fun _ => "```json\n[1, 2]\n```"
  sha256 := id
  jsonEscape := id
  parse := fun s => if s = "[1, 2]" then some (Json.arr [Json.num 1, Json.num 2]) else none
  dumps := fun _ => ""

/-- Claim C1, counterexample — the chat response `"```json\n[1, 2]\n```"` is
not valid JSON, and the fence-stripped text `"[1, 2]"` has no brace pair,
so by the claim a repair round-trip would run (two chat calls) and the
default structure would be returned; the code instead parses the stripped
text directly, makes exactly one chat call and returns the array (so the
default is also not something the caller supplied: `llm_json` has no such
parameter). -/
theorem llm_json_c1_counterexample :
    envC1.parse (envC1.chat (mkMessages "sys" "usr")) = none
      ∧ extractJson (stripFences (envC1.chat (mkMessages "sys" "usr")).toList) = none
      ∧ (llm_json envC1 "sys" "usr" []).2.2 = 1
      ∧ (llm_json envC1 "sys" "usr" []).1 = Json.arr [Json.num 1, Json.num 2] := by
  refine ⟨rfl, rfl, rfl, rfl⟩

/-- Claim C1, amended — on a cache miss whose fence-stripped chat response
does not parse as JSON, `llm_json` tries the first-`{`-to-last-`}` slice;
if that fails it issues exactly one repair round-trip, applies the same
fence stripping and brace extraction to the repair response, and if that
also fails returns the fixed built-in default structure rather than
raising; at most two chat calls are ever made. -/
theorem llm_json_fallback_flow (env : Env) (system user : String) (cache : LLMCache)
    (hmiss : cacheGet env (mkMessages system user) cache = none)
    (hplain : env.parse (String.mk (stripFences (env.chat (mkMessages system user)).toList))
        = none) :
    (llm_json env system user cache =
      match braceParse env (stripFences (env.chat (mkMessages system user)).toList) with
      | some data => (data, cacheSet env (mkMessages system user) (env.dumps data) cache, 1)
      | none =>
        match braceParse env (stripFences (env.chat (repairMessages system
            (stripFences (env.chat (mkMessages system user)).toList))).toList) with
        | some data => (data, cacheSet env (mkMessages system user) (env.dumps data) cache, 2)
        | none => (default_data,
            cacheSet env (mkMessages system user) (env.dumps default_data) cache, 2))
      ∧ (llm_json env system user cache).2.2 ≤ 2
      ∧ (braceParse env (stripFences (env.chat (mkMessages system user)).toList) = none →
          braceParse env (stripFences (env.chat (repairMessages system
            (stripFences (env.chat (mkMessages system user)).toList))).toList) = none →
          (llm_json env system user cache).1 = default_data) := by
  have hmain : llm_json env system user cache =
      llmJsonMiss env system user (mkMessages system user) cache := by
    simp only [llm_json, hmiss]
  simp only [llmJsonMiss] at hmain
  rw [hplain] at hmain
  refine ⟨?_, ?_, ?_⟩
  · rw [hmain]
  · rw [hmain]
    cases braceParse env (stripFences (env.chat (mkMessages system user)).toList) with
    | some d => simp
    | none =>
      cases braceParse env (stripFences (env.chat (repairMessages system
          (stripFences (env.chat (mkMessages system user)).toList))).toList) with
      | some d => simp
      | none => simp
  · intro h1 h2
    rw [hmain, h1, h2]

/-- Concrete all-failing environment for the C1 witness. -/
def envC1W : Env where
  chat := fun _ => "oops"
  sha256 := id
  jsonEscape := id
  parse := fun _ => none
  dumps := fun _ => ""

/-- Witness for the amended C1 theorem at a concrete environment where both
rounds fail, so the built-in default is returned after two chat calls. -/
theorem llm_json_fallback_flow_witness :
    (llm_json envC1W "s" "u" [] =
      match braceParse envC1W (stripFences (envC1W.chat (mkMessages "s" "u")).toList) with
      | some data => (data, cacheSet envC1W (mkMessages "s" "u") (envC1W.dumps data) [], 1)
      | none =>
        match braceParse envC1W (stripFences (envC1W.chat (repairMessages "s"
            (stripFences (envC1W.chat (mkMessages "s" "u")).toList))).toList) with
        | some data => (data, cacheSet envC1W (mkMessages "s" "u") (envC1W.dumps data) [], 2)
        | none => (default_data,
            cacheSet envC1W (mkMessages "s" "u") (envC1W.dumps default_data) [], 2))
      ∧ (llm_json envC1W "s" "u" []).2.2 ≤ 2
      ∧ (braceParse envC1W (stripFences (envC1W.chat (mkMessages "s" "u")).toList) = none →
          braceParse envC1W (stripFences (envC1W.chat (repairMessages "s"
            (stripFences (envC1W.chat (mkMessages "s" "u")).toList))).toList) = none →
          (llm_json envC1W "s" "u" []).1 = default_data) :=
  llm_json_fallback_flow envC1W "s" "u" [] rfl rfl

/-- Every terminating path of the post-miss part of `llm_json` writes the
serialisation of its own result back to the cache under the original
messages' key. -/
theorem llmJsonMiss_cache (env : Env) (system user : String) (messages : List Msg)
    (c : LLMCache) :
    (llmJsonMiss env system user messages c).2.1 =
      cacheSet env messages (env.dumps (llmJsonMiss env system user messages c).1) c := by
  simp only [llmJsonMiss]
  cases env.parse (String.mk (stripFences (env.chat messages).toList)) with
  | some d => rfl
  | none =>
    cases braceParse env (stripFences (env.chat messages).toList) with
    | some d => rfl
    | none =>
      cases braceParse env (stripFences (env.chat (repairMessages system
          (stripFences (env.chat messages).toList))).toList) with
      | some d => rfl
      | none => rfl

/-- Claim C5 — a hit in the cache short-circuits both `llm_rewrite` (the
cached text is returned) and `llm_json` (the parsed cached text is
returned) with zero `client.chat` invocations, and a second identical call
right after a first one repeats neither the request nor changes the cache:
it returns the first call's result with zero chat invocations.  The one
hypothesis is that `json.loads` inverts `json.dumps` on the first call's
result. -/
theorem llm_cache_reuse (env : Env) (system user : String) (cache : LLMCache)
    (t : String) (j : Json)
    (hpd : env.parse (env.dumps (llm_json env system user cache).1)
        = some (llm_json env system user cache).1) :
    (cacheGet env (mkMessages system user) cache = some t →
        llm_rewrite env system user cache = (t, cache, 0))
      ∧ (cacheGet env (mkMessages system user) cache = some t → env.parse t = some j →
          llm_json env system user cache = (j, cache, 0))
      ∧ llm_rewrite env system user ((llm_rewrite env system user cache).2.1)
          = ((llm_rewrite env system user cache).1, (llm_rewrite env system user cache).2.1, 0)
      ∧ llm_json env system user ((llm_json env system user cache).2.1)
          = ((llm_json env system user cache).1, (llm_json env system user cache).2.1, 0) := by
  have hjson : ∀ c₀ : LLMCache,
      llm_json env system user cache = llmJsonMiss env system user (mkMessages system user) c₀ →
      llm_json env system user ((llm_json env system user cache).2.1)
        = ((llm_json env system user cache).1, (llm_json env system user cache).2.1, 0) := by
    intro c₀ heq
    have hsplit := llmJsonMiss_cache env system user (mkMessages system user) c₀
    rw [heq] at hpd ⊢
    rw [hsplit]
    simp only [llm_json, cacheGet_cacheSet, hpd]
  refine ⟨?_, ?_, ?_, ?_⟩
  · intro hc
    simp only [llm_rewrite, hc]
  · intro hc hp
    simp only [llm_json, hc, hp]
  · cases hc : cacheGet env (mkMessages system user) cache with
    | some t' => simp only [llm_rewrite, hc]
    | none => simp only [llm_rewrite, hc, cacheGet_cacheSet]
  · cases hc : cacheGet env (mkMessages system user) cache with
    | some cached =>
      cases hp : env.parse cached with
      | some d => simp only [llm_json, hc, hp]
      | none =>
        refine hjson (cacheSet env (mkMessages system user) "" cache) ?_
        simp only [llm_json, hc, hp]
    | none =>
      refine hjson cache ?_
      simp only [llm_json, hc]

/-- Concrete environment for the C5 witness: the chat oracle answers `"D"`,
which parses to the empty JSON object, whose serialisation is `"D"` again. -/
def envC5 : Env where
  chat := fun _ => "D"
  sha256 := id
  jsonEscape := id
  parse := fun s => if s = "D" then some (Json.obj []) else none
  dumps := fun _ => "D"

/-- Witness for C5 at a concrete environment and the empty cache. -/
theorem llm_cache_reuse_witness :
    (cacheGet envC5 (mkMessages "s" "u") [] = some "D" →
        llm_rewrite envC5 "s" "u" [] = ("D", [], 0))
      ∧ (cacheGet envC5 (mkMessages "s" "u") [] = some "D" →
          envC5.parse "D" = some (Json.obj []) →
          llm_json envC5 "s" "u" [] = (Json.obj [], [], 0))
      ∧ llm_rewrite envC5 "s" "u" ((llm_rewrite envC5 "s" "u" []).2.1)
          = ((llm_rewrite envC5 "s" "u" []).1, (llm_rewrite envC5 "s" "u" []).2.1, 0)
      ∧ llm_json envC5 "s" "u" ((llm_json envC5 "s" "u" []).2.1)
          = ((llm_json envC5 "s" "u" []).1, (llm_json envC5 "s" "u" []).2.1, 0) :=
  llm_cache_reuse envC5 "s" "u" [] "D" (Json.obj []) rfl

/-! ## LLMClient.chat retry loop and model rotation (llm_client.py) -/

/-- Default model list of `LLMClient.__post_init__`. -/
def defaultModels : List String :=
  ["qwen-plus-1220", "qwen-plus-0112", "qwen-plus-0919", "qwen-plus-0723", "qwen-plus-0806"]

/-- The `models`/`_model_index` fields after dataclass construction. -/
structure ClientInit where
  models : List String
  modelIndex : Nat
  deriving DecidableEq, Repr

/-- LLMClient.__post_init__: default the model list when `None` was passed,
start `_model_index` at 2, and reset it to 0 when out of range. -/
def postInit (models? : Option (List String)) : ClientInit :=
  let models := models?.getD defaultModels
  let idx := 2
  let idx := if idx ≥ models.length then 0 else idx
  ⟨models, idx⟩

/-- LLMClient._rotate_model on the index: advance, wrapping past the end of
the list back to 0. -/
def rotateIndex (numModels i : Nat) : Nat :=
  let i' := i + 1
  if i' ≥ numModels then 0 else i'

/-- Outcome of one `conversation.call` in `LLMClient.chat`: a usable
status-200 response; a 403 whose message contains "free tier" (rotate and
retry without counting an attempt); any other status (a `RuntimeError`,
caught by the `except` and counted); or an exception raised by the call
itself (also counted, but without the request-counter increment).
Exceptions are identified by a numeric id. -/
inductive ApiOutcome where
  | ok (text : String)
  | freeTier
  | badStatus (e : Nat)
  | raised (e : Nat)
  deriving DecidableEq, Repr

/-- Mutable state of the `while True` loop in `LLMClient.chat`.
`backoffSleeps` records the `time.sleep(2 ** attempt)` durations (the
rate-limiting `time.sleep(1)` is not recorded). -/
structure ChatState where
  modelIndex : Nat
  attempt : Nat
  callNo : Nat
  requestCounter : Nat
  backoffSleeps : List Nat
  deriving DecidableEq, Repr

/-- Result of the loop: a returned text, a re-raised exception, or fuel
exhaustion (the source loop has no structural bound because the free-tier
branch retries without counting). -/
inductive ChatResult where
  | ok (text : String) (s : ChatState)
  | raise (e : Nat) (s : ChatState)
  | fuelOut (s : ChatState)
  deriving DecidableEq, Repr

/-- Final state carried by a `ChatResult`. -/
def ChatResult.state : ChatResult → ChatState
  | .ok _ s => s
  | .raise _ s => s
  | .fuelOut s => s

/-- The `while True` loop of `LLMClient.chat`, with the outcome of the
`k`-th API call given by the oracle `o`.  On an exception the attempt
counter is incremented; when it reaches `maxRetries` the exception is
re-raised, otherwise the loop sleeps `2 ** attempt` seconds and retries. -/
def chatLoop (o : Nat → ApiOutcome) (maxRetries numModels : Nat) :
    Nat → ChatState → ChatResult
  | 0, s => .fuelOut s
  | fuel + 1, s =>
    match o s.callNo with
    | .ok t =>
      .ok t { s with callNo := s.callNo + 1, requestCounter := s.requestCounter + 1 }
    | .freeTier =>
      chatLoop o maxRetries numModels fuel
        { s with callNo := s.callNo + 1, requestCounter := s.requestCounter + 1,
                 modelIndex := rotateIndex numModels s.modelIndex }
    | .badStatus e =>
      let a := s.attempt + 1
      if a ≥ maxRetries then
        .raise e { s with attempt := a, callNo := s.callNo + 1,
                          requestCounter := s.requestCounter + 1 }
      else
        chatLoop o maxRetries numModels fuel
          { s with attempt := a, callNo := s.callNo + 1,
                   requestCounter := s.requestCounter + 1,
                   backoffSleeps := s.backoffSleeps ++ [2 ^ a] }
    | .raised e =>
      let a := s.attempt + 1
      if a ≥ maxRetries then
        .raise e { s with attempt := a, callNo := s.callNo + 1 }
      else
        chatLoop o maxRetries numModels fuel
          { s with attempt := a, callNo := s.callNo + 1,
                   backoffSleeps := s.backoffSleeps ++ [2 ^ a] }

/-- When every API call raises, the loop makes attempts until the counter
reaches `maxRetries`, sleeping `2 ^ a` after the `a`-th failure, and then
re-raises the current exception (stated from an arbitrary reachable
state). -/
theorem chatLoop_all_raised (o : Nat → ApiOutcome) (err : Nat → Nat)
    (h : ∀ k, o k = .raised (err k)) (maxRetries numModels : Nat) :
    ∀ fuel s, s.attempt < maxRetries → maxRetries - s.attempt ≤ fuel →
      chatLoop o maxRetries numModels fuel s =
        .raise (err (s.callNo + (maxRetries - s.attempt) - 1))
          ⟨s.modelIndex, maxRetries, s.callNo + (maxRetries - s.attempt), s.requestCounter,
            s.backoffSleeps ++ (List.range' (s.attempt + 1) (maxRetries - s.attempt - 1)).map
              (2 ^ ·)⟩ := by
  intro fuel
  induction fuel with
  | zero => intro s hlt hle; omega
  | succ fuel ih =>
    intro s hlt hle
    rw [chatLoop, h s.callNo]
    by_cases hmax : s.attempt + 1 ≥ maxRetries
    · have h1 : maxRetries - s.attempt = 1 := by omega
      simp only [hmax, if_pos]
      have h4 : maxRetries = s.attempt + 1 := by omega
      rw [h1]
      simp [h4]
    · simp only [hmax, if_neg, not_false_iff]
      rw [ih _ (by simp; omega) (by simp; omega)]
      have e1 : s.callNo + 1 + (maxRetries - (s.attempt + 1)) - 1
          = s.callNo + (maxRetries - s.attempt) - 1 := by omega
      have e2 : s.callNo + 1 + (maxRetries - (s.attempt + 1))
          = s.callNo + (maxRetries - s.attempt) := by omega
      have e3 : maxRetries - s.attempt - 1 = (maxRetries - (s.attempt + 1) - 1) + 1 := by
        omega
      simp only [e1, e2, e3, List.range'_succ, List.map_cons, List.append_assoc,
        List.singleton_append]

/-- Claim C3 — when every underlying API attempt fails with an exception,
`LLMClient.chat` makes exactly `max_retries` attempts from a fresh call,
sleeps `2 ** attempt` seconds after each of the first `max_retries - 1`
failures, and after the `max_retries`-th failed attempt re-raises the last
exception to the caller. -/
theorem chat_retries_with_backoff (o : Nat → ApiOutcome) (err : Nat → Nat)
    (idx rc maxRetries numModels fuel : Nat)
    (h : ∀ k, o k = .raised (err k)) (h1 : 1 ≤ maxRetries) (hf : maxRetries ≤ fuel) :
    chatLoop o maxRetries numModels fuel ⟨idx, 0, 0, rc, []⟩ =
      .raise (err (maxRetries - 1))
        ⟨idx, maxRetries, maxRetries, rc, (List.range' 1 (maxRetries - 1)).map (2 ^ ·)⟩ := by
  have := chatLoop_all_raised o err h maxRetries numModels fuel ⟨idx, 0, 0, rc, []⟩
    (by simpa using h1) (by simpa using hf)
  simpa using this

/-- Witness for C3: three attempts with `max_retries = 3`, sleeping 2 then
4 seconds, then the third exception (id 2) is re-raised. -/
theorem chat_retries_with_backoff_witness :
    chatLoop (fun k => .raised k) 3 5 3 ⟨2, 0, 0, 0, []⟩ =
      .raise 2 ⟨2, 3, 3, 0, [2, 4]⟩ := by
  have := chat_retries_with_backoff (fun k => .raised k) id 2 0 3 5 3
    (fun k => rfl) (by decide) (by decide)
  simpa using this

/-- Rotating always lands back inside a nonempty model list, from any
starting index. -/
theorem rotateIndex_lt (n : Nat) (hn : 0 < n) (i : Nat) : rotateIndex n i < n := by
  unfold rotateIndex
  by_cases h : i + 1 ≥ n
  · simpa [h]
  · simpa [h] using by omega

/-- The chat loop keeps the model index inside a nonempty model list. -/
theorem chatLoop_modelIndex_lt (o : Nat → ApiOutcome) (mr n : Nat) (hn : 0 < n) :
    ∀ fuel s, s.modelIndex < n → (chatLoop o mr n fuel s).state.modelIndex < n := by
  intro fuel
  induction fuel with
  | zero => intro s hs; simpa [chatLoop, ChatResult.state] using hs
  | succ fuel ih =>
    intro s hs
    rw [chatLoop]
    cases o s.callNo with
    | ok t => simpa [ChatResult.state] using hs
    | freeTier => exact ih _ (rotateIndex_lt n hn s.modelIndex)
    | badStatus e =>
      by_cases h : s.attempt + 1 ≥ mr
      · simpa [h, ChatResult.state] using hs
      · simp only [if_neg h]
        exact ih _ hs
    | raised e =>
      by_cases h : s.attempt + 1 ≥ mr
      · simpa [h, ChatResult.state] using hs
      · simp only [if_neg h]
        exact ih _ hs

/-- Claim C4, counterexample — constructing the client with an explicitly
empty model list leaves `_model_index = 0` with `len(models) = 0`, so the
claimed invariant `0 <= _model_index < len(models)` fails right after
construction. -/
theorem model_index_c4_counterexample :
    (postInit (some [])).modelIndex = 0
      ∧ (postInit (some [])).models.length = 0
      ∧ ¬ (postInit (some [])).modelIndex < (postInit (some [])).models.length := by
  refine ⟨rfl, rfl, by decide⟩

/-- Claim C4, amended — provided the model list is nonempty, the model
index is in range after construction; a rotation from any index lands in
range and rotating from the last model wraps to the first; a free-tier 403
makes the loop continue with the rotated index; and the loop preserves the
in-range invariant, so the current-model lookup never goes out of range. -/
theorem model_index_in_range (ms : Option (List String)) (n i fuel mr : Nat)
    (o : Nat → ApiOutcome) (s : ChatState)
    (hne : ms.getD defaultModels ≠ []) (hn : 0 < n) (hs : s.modelIndex < n) :
    (postInit ms).modelIndex < (postInit ms).models.length
      ∧ rotateIndex n i < n
      ∧ rotateIndex n (n - 1) = 0
      ∧ (o s.callNo = .freeTier →
          chatLoop o mr n (fuel + 1) s = chatLoop o mr n fuel
            { s with callNo := s.callNo + 1, requestCounter := s.requestCounter + 1,
                     modelIndex := rotateIndex n s.modelIndex })
      ∧ (chatLoop o mr n fuel s).state.modelIndex < n := by
  refine ⟨?_, rotateIndex_lt n hn i, ?_, ?_, chatLoop_modelIndex_lt o mr n hn fuel s hs⟩
  · have hpos : 0 < (ms.getD defaultModels).length := List.length_pos.mpr hne
    unfold postInit
    by_cases h : 2 ≥ (ms.getD defaultModels).length
    · simpa [h] using hpos
    · simpa [h] using by omega
  · unfold rotateIndex
    have : n - 1 + 1 ≥ n := by omega
    simp [this]
  · intro hft
    rw [chatLoop, hft]

/-- Witness for the amended C4 theorem: default model list (length 5),
index 4 wraps to 0, and one free-tier response rotates index 2 to 3. -/
theorem model_index_in_range_witness :
    (postInit none).modelIndex < (postInit none).models.length
      ∧ rotateIndex 5 4 < 5
      ∧ rotateIndex 5 (5 - 1) = 0
      ∧ ((fun _ => ApiOutcome.freeTier) (ChatState.callNo ⟨2, 0, 0, 0, []⟩) = .freeTier →
          chatLoop (fun _ => ApiOutcome.freeTier) 3 5 (1 + 1) ⟨2, 0, 0, 0, []⟩ =
            chatLoop (fun _ => ApiOutcome.freeTier) 3 5 1
              ⟨rotateIndex 5 2, 0, 0 + 1, 0 + 1, []⟩)
      ∧ (chatLoop (fun _ => ApiOutcome.freeTier) 3 5 1
          ⟨2, 0, 0, 0, []⟩).state.modelIndex < 5 :=
  model_index_in_range none 5 4 1 3 (fun _ => ApiOutcome.freeTier) ⟨2, 0, 0, 0, []⟩
    (by decide) (by decide) (by decide)

/-! ## Knowledge-base scanning and ranking (src/kb_search.py) -/

/-- One entry found by `kb_dir.rglob('*')`, in walk order. -/
structure KbEntry where
  path : String
  isFile : Bool
  deriving DecidableEq, Repr

/-- The regular files of the walk, in order: the list comprehension
`[p for p in kb_dir.rglob('*') if p.is_file()]`. -/
def kbFiles (entries : List KbEntry) : List String :=
  (entries.filter (·.isFile)).map (·.path)

/-- Function `scan_kb` of src/kb_search.py: collect the regular files, then
return only `all_files[:5]`. -/
def scan_kb (entries : List KbEntry) : List String :=
  let all_files := kbFiles entries
  all_files.take 5

/-- Claim C6, counterexample — a knowledge base with six regular files:
`scan_kb` returns five paths and the sixth file never reaches scoring,
refuting "returns all regular files found by recursively walking". -/
theorem scan_kb_c6_counterexample :
    (scan_kb [⟨"f1", true⟩, ⟨"f2", true⟩, ⟨"f3", true⟩, ⟨"f4", true⟩,
        ⟨"f5", true⟩, ⟨"f6", true⟩]).length = 5
      ∧ "f6" ∈ kbFiles [⟨"f1", true⟩, ⟨"f2", true⟩, ⟨"f3", true⟩, ⟨"f4", true⟩,
          ⟨"f5", true⟩, ⟨"f6", true⟩]
      ∧ "f6" ∉ scan_kb [⟨"f1", true⟩, ⟨"f2", true⟩, ⟨"f3", true⟩, ⟨"f4", true⟩,
          ⟨"f5", true⟩, ⟨"f6", true⟩] := by
  refine ⟨rfl, by decide, by decide⟩

/-- Claim C6, amended — `scan_kb` returns at most five paths, namely a
leading segment of the regular files found by recursively walking `kb_dir`
(a deliberate testing limitation noted in its docstring); when the walk
finds at most five regular files, all of them are passed on to scoring. -/
theorem scan_kb_first_five (entries : List KbEntry) :
    (scan_kb entries).length ≤ 5
      ∧ (∃ rest, scan_kb entries ++ rest = kbFiles entries)
      ∧ ((kbFiles entries).length ≤ 5 → scan_kb entries = kbFiles entries) := by
  refine ⟨?_, ⟨(kbFiles entries).drop 5, List.take_append_drop 5 (kbFiles entries)⟩, ?_⟩
  · simpa [scan_kb] using by omega
  · intro h
    exact List.take_of_length_le h

/-- Witness for the amended C6 theorem on a two-file knowledge base. -/
theorem scan_kb_first_five_witness :
    (scan_kb [⟨"a", true⟩, ⟨"b", false⟩]).length ≤ 5
      ∧ (∃ rest, scan_kb [⟨"a", true⟩, ⟨"b", false⟩] ++ rest
          = kbFiles [⟨"a", true⟩, ⟨"b", false⟩])
      ∧ ((kbFiles [⟨"a", true⟩, ⟨"b", false⟩]).length ≤ 5 →
          scan_kb [⟨"a", true⟩, ⟨"b", false⟩] = kbFiles [⟨"a", true⟩, ⟨"b", false⟩]) :=
  scan_kb_first_five [⟨"a", true⟩, ⟨"b", false⟩]

/-- The `(path, score)` pairs accumulated by the loop of `rank_files`:
unreadable files are skipped (`except: continue`), each readable file is
scored by the LLM on its 800-character snippet.  The oracle `score` stands
for `float(llm_json(...).get("score", 0.0))` on the prompt built from the
requirement and the snippet. -/
def rankScores (read : String → Option String) (score : String → String → ℚ)
    (files : List String) : List (String × ℚ) :=
  files.filterMap fun p =>
    (read p).map fun text => (p, score p (String.mk (text.toList.take 800)))

/-- Function `rank_files` of src/kb_search.py: the scored pairs, sorted by
score with `reverse=True` (a stable descending sort, modelled by
`mergeSort`), truncated to `topk`. -/
def rank_files (read : String → Option String) (score : String → String → ℚ)
    (topk : Nat) (files : List String) : List (String × ℚ) :=
  ((rankScores read score files).mergeSort (fun a b => decide (b.2 ≤ a.2))).take topk

/-- Claim C7 — `rank_files` returns at most `topk` pairs, sorted in
non-increasing score order; every returned pair comes from a readable file;
and the result is a leading segment of a descending reordering of all
scored pairs, every dropped pair scoring no higher than any returned one. -/
theorem rank_files_topk_sorted (read : String → Option String)
    (score : String → String → ℚ) (topk : Nat) (files : List String) :
    (rank_files read score topk files).length ≤ topk
      ∧ (rank_files read score topk files).Sorted (fun a b => b.2 ≤ a.2)
      ∧ (∀ p ∈ rank_files read score topk files,
          p ∈ rankScores read score files ∧ read p.1 ≠ none)
      ∧ ∃ rest, (rank_files read score topk files ++ rest).Perm (rankScores read score files)
          ∧ ∀ a ∈ rank_files read score topk files, ∀ b ∈ rest, b.2 ≤ a.2 := by
  have hsorted : ((rankScores read score files).mergeSort
      (fun a b => decide (b.2 ≤ a.2))).Pairwise (fun a b => b.2 ≤ a.2) := by
    have := @List.sorted_mergeSort _ (fun a b : String × ℚ => decide (b.2 ≤ a.2))
      (fun a b c hab hbc => by
        simp only [decide_eq_true_iff] at *
        exact le_trans hbc hab)
      (fun a b => by
        simp only [Bool.or_eq_true, decide_eq_true_iff]
        exact le_total b.2 a.2)
      (rankScores read score files)
    exact this.imp (by simp)
  refine ⟨?_, ?_, ?_, ?_⟩
  · simpa [rank_files] using by omega
  · exact hsorted.sublist (List.take_sublist _ _)
  · intro p hp
    have hmem : p ∈ rankScores read score files := by
      have h1 : p ∈ (rankScores read score files).mergeSort
          (fun a b => decide (b.2 ≤ a.2)) :=
        (List.take_sublist _ _).mem hp
      exact List.mem_mergeSort.mp h1
    refine ⟨hmem, ?_⟩
    rcases List.mem_filterMap.mp hmem with ⟨a, _, hfa⟩
    cases hread : read a with
    | none => rw [hread] at hfa; simp at hfa
    | some text =>
      rw [hread] at hfa
      simp only [Option.map_some'] at hfa
      have : p.1 = a := by
        have := congrArg Prod.fst (Option.some_injective _ hfa)
        exact this.symm
      rw [this, hread]
      exact Option.some_ne_none text
  · refine ⟨((rankScores read score files).mergeSort (fun a b => decide (b.2 ≤ a.2))).drop topk,
      ?_, ?_⟩
    · rw [rank_files, List.take_append_drop]
      exact List.mergeSort_perm _ _
    · intro a ha b hb
      have hsplit : ((rankScores read score files).mergeSort (fun a b => decide (b.2 ≤ a.2)))
          = rank_files read score topk files
            ++ ((rankScores read score files).mergeSort
                (fun a b => decide (b.2 ≤ a.2))).drop topk :=
        (List.take_append_drop topk _).symm
      have hpw := hsorted
      rw [hsplit] at hpw
      exact (List.pairwise_append.mp hpw).2.2 a ha b hb

/-! ## Content merging (src/content_merge.py) -/

/-- A normalized requirement item (src/requirements_parser.py).  The Python
field `section` is rendered `sectionName` (`section` is a Lean keyword). -/
structure RequirementItem where
  id : String
  title : String
  keywords : List String
  source : String
  notes : String
  weight : ℚ
  response_type : String := "generate"
  sectionName : String := ""
  deriving DecidableEq, Repr

/-- The snippets gathered for one requirement: each ranked file is read
(`except: continue` skips unreadable ones) and stripped. -/
def snippetsFor (read : String → Option String) (ranked : String → List (String × ℚ))
    (req : RequirementItem) : List String :=
  (ranked req.id).filterMap fun pq => (read pq.1).map String.trim

/-- The generation prompt `f"招标要求: {req.title}\n\n源文本:\n{context}"`. -/
def genUser (title context : String) : String :=
  "招标要求: " ++ title ++ "\n\n源文本:\n" ++ context

/-- Guarantee a trailing `\newpage`: when the stripped content does not end
with it, append it after `rstrip()`. -/
def newpageFix (merged : String) : String :=
  if merged.trim.endsWith "\\newpage" then merged else merged.trimRight ++ "\n\\newpage"

/-- The Markdown section `merge_contents` emits for one requirement: a
placeholder headed by the requirement's title when no ranked snippet could
be read, else the LLM-rewritten (or, without LLM / on an LLM exception,
concatenated) snippet content under the section title.  The oracle `gen`
stands for the `llm_rewrite` call; `none` models the `except` branch that
falls back to the raw context. -/
def sectionFor (read : String → Option String) (gen : String → Option String)
    (useLlm : Bool) (ranked : String → List (String × ℚ)) (req : RequirementItem) : String :=
  let snippets := snippetsFor read ranked req
  if snippets.isEmpty then
    "## " ++ req.title ++ "\n\n针对招标要求 '" ++ req.title ++ "' 的响应内容正在准备中。\n"
  else
    let context := String.intercalate "\n\n" snippets
    let merged := if useLlm then (gen (genUser req.title context)).getD context else context
    let merged := newpageFix merged
    let sectionTitle := if req.title = "默认需求" then "项目技术方案与实施方案" else req.title
    "# " ++ sectionTitle ++ "\n\n" ++ merged ++ "\n"

/-- The `sections` list accumulated by the main loop of `merge_contents`,
one element appended per requirement. -/
def mergeSections (read : String → Option String) (gen : String → Option String)
    (useLlm : Bool) (ranked : String → List (String × ℚ)) :
    List RequirementItem → List String
  | [] => []
  | r :: rs =>
    sectionFor read gen useLlm ranked r :: mergeSections read gen useLlm ranked rs

/-- Function `merge_contents` of src/content_merge.py, restricted to its
returned Markdown (`"\n".join(sections)`); the `meta` dict and the optional
per-requirement file writes are I/O bookkeeping not modelled here. -/
def merge_contents (read : String → Option String) (gen : String → Option String)
    (useLlm : Bool) (ranked : String → List (String × ℚ))
    (reqs : List RequirementItem) : String :=
  String.intercalate "\n" (mergeSections read gen useLlm ranked reqs)

/-- Claim C8 — `merge_contents` emits exactly one section per requirement,
in input order, and returns their newline-join; a requirement with no
readable ranked snippets gets a placeholder section headed by its title,
and one with snippets gets a section whose body is the LLM-rewritten (or
concatenated) snippet content. -/
theorem merge_contents_one_section_per_requirement (read : String → Option String)
    (gen : String → Option String) (useLlm : Bool)
    (ranked : String → List (String × ℚ)) (reqs : List RequirementItem)
    (req : RequirementItem) :
    mergeSections read gen useLlm ranked reqs = reqs.map (sectionFor read gen useLlm ranked)
      ∧ (mergeSections read gen useLlm ranked reqs).length = reqs.length
      ∧ merge_contents read gen useLlm ranked reqs
          = String.intercalate "\n" (reqs.map (sectionFor read gen useLlm ranked))
      ∧ (snippetsFor read ranked req = [] →
          sectionFor read gen useLlm ranked req
            = "## " ++ req.title ++ "\n\n针对招标要求 '" ++ req.title
              ++ "' 的响应内容正在准备中。\n")
      ∧ (snippetsFor read ranked req ≠ [] →
          sectionFor read gen useLlm ranked req
            = "# " ++ (if req.title = "默认需求" then "项目技术方案与实施方案" else req.title)
              ++ "\n\n"
              ++ newpageFix (if useLlm then
                    (gen (genUser req.title
                      (String.intercalate "\n\n" (snippetsFor read ranked req)))).getD
                      (String.intercalate "\n\n" (snippetsFor read ranked req))
                  else String.intercalate "\n\n" (snippetsFor read ranked req))
              ++ "\n") := by
  have hmap : ∀ rs : List RequirementItem,
      mergeSections read gen useLlm ranked rs = rs.map (sectionFor read gen useLlm ranked) := by
    intro rs
    induction rs with
    | nil => rfl
    | cons r rs ih => simp [mergeSections, ih]
  refine ⟨hmap reqs, by rw [hmap reqs, List.length_map], by rw [merge_contents, hmap reqs],
    ?_, ?_⟩
  · intro hempty
    rw [sectionFor]
    simp [hempty]
  · intro hne
    rw [sectionFor]
    simp only [List.isEmpty_iff, hne]
    simp

/-- Concrete requirement for the C8 witness. -/
def reqW : RequirementItem := ⟨"1", "t", [], "", "", 1, "generate", ""⟩

/-- Concrete read oracle for the C8 witness. -/
def readW : String → Option String := fun _ => some "text"

/-- Concrete rewrite oracle for the C8 witness (the LLM call raises). -/
def genW : String → Option String := fun _ => none

/-- Concrete ranking map for the C8 witness. -/
def rankedW : String → List (String × ℚ) := fun _ => [("f", 1)]

/-- Witness for C8 on a one-requirement input whose single ranked file is
readable. -/
theorem merge_contents_one_section_per_requirement_witness :
    mergeSections readW genW true rankedW [reqW]
      = [reqW].map (sectionFor readW genW true rankedW)
      ∧ (mergeSections readW genW true rankedW [reqW]).length = [reqW].length
      ∧ merge_contents readW genW true rankedW [reqW]
        = String.intercalate "\n" ([reqW].map (sectionFor readW genW true rankedW))
      ∧ (snippetsFor readW rankedW reqW = [] →
          sectionFor readW genW true rankedW reqW
            = "## " ++ reqW.title ++ "\n\n针对招标要求 '" ++ reqW.title
              ++ "' 的响应内容正在准备中。\n")
      ∧ (snippetsFor readW rankedW reqW ≠ [] →
          sectionFor readW genW true rankedW reqW
            = "# " ++ (if reqW.title = "默认需求" then "项目技术方案与实施方案" else reqW.title)
              ++ "\n\n"
              ++ newpageFix (if true then
                    (genW (genUser reqW.title
                      (String.intercalate "\n\n" (snippetsFor readW rankedW reqW)))).getD
                      (String.intercalate "\n\n" (snippetsFor readW rankedW reqW))
                  else String.intercalate "\n\n" (snippetsFor readW rankedW reqW))
              ++ "\n") :=
  merge_contents_one_section_per_requirement readW genW true rankedW [reqW] reqW

/-! ## LLMClient.chat does not mutate the caller's messages (llm_client.py)

Python messages are heap-allocated dicts reached through references; the
heap is modelled as a total map from reference ids to message values, and
`messages = [dict(m) for m in messages]` as allocation of fresh copies at
ids `base, base+1, ...`. -/

/-- A Python heap of message dicts. -/
abbrev Heap := Nat → Msg

/-- In-place update of one dict. -/
def heapWrite (h : Heap) (r : Nat) (m : Msg) : Heap :=
  fun x => if x = r then m else h x

/-- The copy `messages = [dict(m) for m in messages]`: shallow copies of
the referenced dicts are allocated at consecutive fresh ids. -/
def allocCopies : Heap → List Nat → Nat → Heap × List Nat
  | h, [], _ => (h, [])
  | h, r :: rs, base =>
    let h' := heapWrite h base (h r)
    let res := allocCopies h' rs (base + 1)
    (res.1, base :: res.2)

/-- The over-length guard of `LLMClient.chat`: when the summed content
length exceeds `max_input_tokens`, the last local message's content is
truncated in place to the allowed length (clamped at 0, as in the
source). -/
def truncateLast (h : Heap) (locals : List Nat) (maxInput : Nat) : Heap :=
  let totalLen := (locals.map fun r => (h r).content.length).sum
  if maxInput < totalLen ∧ locals ≠ [] then
    match locals.getLast? with
    | some lr =>
      let allowed := maxInput - (totalLen - (h lr).content.length)
      heapWrite h lr { h lr with content := String.mk ((h lr).content.toList.take allowed) }
    | none => h
  else h

/-- The message preprocessing at the top of `LLMClient.chat`: copy the
caller's messages to fresh dicts, then truncate the last copy if needed.
Returns the updated heap and the local reference list. -/
def chatPrelude (h : Heap) (refs : List Nat) (base maxInput : Nat) : Heap × List Nat :=
  let res := allocCopies h refs base
  (truncateLast res.1 res.2 maxInput, res.2)

/-- Allocation at fresh ids leaves every smaller id untouched. -/
theorem allocCopies_frame : ∀ (refs : List Nat) (h : Heap) (base r : Nat), r < base →
    (allocCopies h refs base).1 r = h r := by
  intro refs
  induction refs with
  | nil => intro h base r _; rfl
  | cons r₀ rs ih =>
    intro h base r hr
    show (allocCopies (heapWrite h base (h r₀)) rs (base + 1)).1 r = h r
    rw [ih _ (base + 1) r (by omega)]
    simp [heapWrite]
    omega

/-- Every local copy lives at an id at least `base`. -/
theorem allocCopies_locals_ge : ∀ (refs : List Nat) (h : Heap) (base l : Nat),
    l ∈ (allocCopies h refs base).2 → base ≤ l := by
  intro refs
  induction refs with
  | nil => intro h base l hl; simp [allocCopies] at hl
  | cons r₀ rs ih =>
    intro h base l hl
    rcases List.mem_cons.mp hl with h1 | h2
    · omega
    · have := ih (heapWrite h base (h r₀)) (base + 1) l h2
      omega

/-- The in-place truncation touches only local ids. -/
theorem truncateLast_frame (h : Heap) (locals : List Nat) (maxInput r : Nat)
    (hr : ∀ l ∈ locals, r ≠ l) : truncateLast h locals maxInput r = h r := by
  unfold truncateLast
  split
  · cases hlast : locals.getLast? with
    | none => rfl
    | some lr =>
      have hmem : lr ∈ locals :=
        List.mem_of_mem_getLast? (by rw [hlast]; exact Option.mem_some_iff.mpr rfl)
      simp [heapWrite, hr lr hmem]
  · rfl

/-- Claim C9 — `LLMClient.chat` never mutates the caller's message list or
its dicts: the truncation operates on the fresh shallow copies, so every
caller-visible message is unchanged and the caller's list reads back equal
to its value before the call.  The hypothesis says the copies are allocated
at fresh ids. -/
theorem chat_preserves_caller_messages (h : Heap) (refs : List Nat) (base maxInput : Nat)
    (hfresh : ∀ r ∈ refs, r < base) :
    (∀ r ∈ refs, (chatPrelude h refs base maxInput).1 r = h r)
      ∧ refs.map (chatPrelude h refs base maxInput).1 = refs.map h := by
  have hframe : ∀ r ∈ refs, (chatPrelude h refs base maxInput).1 r = h r := by
    intro r hr
    show truncateLast (allocCopies h refs base).1 (allocCopies h refs base).2 maxInput r
      = h r
    rw [truncateLast_frame _ _ _ _ (fun l hl => by
      have := allocCopies_locals_ge refs h base l hl
      have := hfresh r hr
      omega)]
    exact allocCopies_frame refs h base r (hfresh r hr)
  exact ⟨hframe, List.map_congr_left hframe⟩

/-- Witness for C9: two caller messages totalling more characters than
`max_input_tokens`, so the truncation branch runs, yet both caller dicts
read back unchanged. -/
theorem chat_preserves_caller_messages_witness :
    (∀ r ∈ [0, 1], (chatPrelude (fun _ => ⟨"user", "hello"⟩) [0, 1] 10 3).1 r
        = (fun _ => (⟨"user", "hello"⟩ : Msg)) r)
      ∧ [0, 1].map (chatPrelude (fun _ => ⟨"user", "hello"⟩) [0, 1] 10 3).1
        = [0, 1].map (fun _ => (⟨"user", "hello"⟩ : Msg)) :=
  chat_preserves_caller_messages (fun _ => ⟨"user", "hello"⟩) [0, 1] 10 3 (by decide)

/-! ## Fallback Markdown→LaTeX conversion (src/latex_renderer.py) -/

/-- The `\begin{itemize}` marker. -/
def beginItemize : List Char := "\\begin\x7bitemize\x7d".toList

/-- The `\end{itemize}` marker. -/
def endItemize : List Char := "\\end\x7bitemize\x7d".toList

/-- The `\item` marker. -/
def itemTok : List Char := "\\item".toList

/-- The `\section{` marker. -/
def sectionTok : List Char := "\\section\x7b".toList

/-- The `\subsection{` marker. -/
def subsectionTok : List Char := "\\subsection\x7b".toList

/-- The `\subsubsection{` marker. -/
def subsubsectionTok : List Char := "\\subsubsection\x7b".toList

/-- The header test of `_fix_itemize_environments`:
`line.startswith(('\section{', '\subsection{', '\subsubsection{'))`. -/
def isHeaderStart (l : List Char) : Bool :=
  sectionTok.isPrefixOf l || subsectionTok.isPrefixOf l || subsubsectionTok.isPrefixOf l

/-- The line loop of `_fix_itemize_environments`: lines are stripped; a
line containing `\begin{itemize}` pushes, one containing `\end{itemize}`
pops when the stack is nonempty, an `\item` line outside any environment
gets one opened before it, a header line closes all open environments, and
at the end the remaining ones are closed.  The `itemize_stack` of booleans
is modelled by its length. -/
def fixLoop : List (List Char) → Nat → List (List Char)
  | [], depth => List.replicate depth endItemize
  | l :: ls, depth =>
    let line := pyStrip l
    if line.isEmpty then [] :: fixLoop ls depth
    else if hasSubstr beginItemize line then line :: fixLoop ls (depth + 1)
    else if hasSubstr endItemize line then line :: fixLoop ls (depth - 1)
    else if itemTok.isPrefixOf line then
      if depth = 0 then beginItemize :: line :: fixLoop ls 1
      else line :: fixLoop ls depth
    else if isHeaderStart line then
      List.replicate depth endItemize ++ line :: fixLoop ls 0
    else line :: fixLoop ls depth

/-- Function `_fix_itemize_environments` of src/latex_renderer.py:
split on newlines, run the fixup loop, rejoin. -/
def fix_itemize_environments (s : String) : String :=
  String.mk (joinLines '\n' (fixLoop (splitOnChar '\n' s.toList) 0))

/-- Function `_escape_latex` of src/latex_renderer.py: the replacements are
applied sequentially in dict insertion order, the backslash rule last (so
it also rewrites backslashes introduced by the earlier rules, exactly as
`str.replace` chains do). -/
def escape_latex (l : List Char) : List Char :=
  let t := replaceList ("&".toList) ("\\&".toList) l
  let t := replaceList ("%".toList) ("\\%".toList) t
  let t := replaceList ("$".toList) ("\\$".toList) t
  let t := replaceList ("#".toList) ("\\#".toList) t
  let t := replaceList ("_".toList) ("\\_".toList) t
  let t := replaceList ("\x7b".toList) ("\\\x7b".toList) t
  let t := replaceList ("\x7d".toList) ("\\\x7d".toList) t
  let t := replaceList ("~".toList) ("\\textasciitilde\x7b\x7d".toList) t
  let t := replaceList ("^".toList) ("\\textasciicircum\x7b\x7d".toList) t
  replaceList ("\\".toList) ("\\textbackslash\x7b\x7d".toList) t

/-- The else-branch of `_simple_markdown_to_latex`: escape, then the
`≥ ≤ > <` math substitutions and the `{{`/`}}` removals. -/
def processedLine (line : List Char) : List Char :=
  let p := escape_latex line
  let p := replaceList ("≥".toList) ("$\\geq$".toList) p
  let p := replaceList ("≤".toList) ("$\\leq$".toList) p
  let p := replaceList (">".toList) ("$>$".toList) p
  let p := replaceList ("<".toList) ("$<$".toList) p
  let p := replaceList ("\x7b\x7b".toList) [] p
  replaceList ("\x7d\x7d".toList) [] p

/-- A separator-row cell of a Markdown table: only `-` and `:` characters
(possibly none). -/
def isSepCell (c : List Char) : Bool := c.all fun ch => ch = '-' || ch = ':'

/-- One `tabular` row: ` & `-joined escaped cells (Python
`' & '.join(_escape_latex(c) for c in row)`). -/
def joinCells : List (List Char) → List Char
  | [] => []
  | [c] => c
  | c :: cs => c ++ " & ".toList ++ joinCells cs

/-- One `tabular` row line with its trailing ` \\`. -/
def rowLine (cells : List (List Char)) : List Char :=
  joinCells (cells.map escape_latex) ++ " \\\\".toList

/-- Function `_markdown_table_to_latex` of src/latex_renderer.py. -/
def markdown_table_to_latex (lines : List (List Char)) : List (List Char) :=
  let rows := lines.map fun ln => (splitOnChar '|' (stripChar '|' ln)).map pyStrip
  match rows with
  | [] => []
  | header :: rest =>
    let sep := match rest with
      | r1 :: _ => r1.all isSepCell
      | [] => false
    let body := if sep then (header :: rest).drop 2 else rest
    let colSpec := List.intercalate (" | ".toList) (List.replicate header.length ("l".toList))
    ("\\begin\x7btabular\x7d\x7b".toList ++ colSpec ++ ['\x7d']) :: "\\hline".toList ::
      rowLine header :: "\\hline".toList ::
      ((body.flatMap fun row => [rowLine row, "\\hline".toList])
        ++ ["\\end\x7btabular\x7d".toList])

/-- A stripped line that opens a Markdown table:
`line.startswith('|') and '|' in line[1:]`. -/
def isTableStart (line : List Char) : Bool :=
  ("|".toList).isPrefixOf line && (line.drop 1).contains '|'

/-- The consumption test of the inner table loop:
`lines[i].strip().startswith('|')` on the raw line. -/
def startsBar (raw : List Char) : Bool := ("|".toList).isPrefixOf (pyStrip raw)

/-- The line loop of `_simple_markdown_to_latex`: tables and headers close
all open itemize environments first; `- ` items open one when needed; bold,
monospace and `---` lines map to their LaTeX forms; anything else is
escaped; at the end all open environments are closed.  The inner table
`while` consumes the raw lines from the current one on while their strip
starts with `|`; in the branch the current line satisfies that test, so
consuming `line` plus the matching lines of `ls` is the same splitting. -/
def simpleLoop (lines : List (List Char)) (depth : Nat) : List (List Char) :=
  match lines with
  | [] => List.replicate depth endItemize
  | l :: ls =>
    if (pyStrip l).isEmpty then [] :: simpleLoop ls depth
    else if isTableStart (pyStrip l) then
      List.replicate depth endItemize
        ++ markdown_table_to_latex (pyStrip l :: (ls.takeWhile startsBar).map pyStrip)
        ++ simpleLoop (ls.dropWhile startsBar) 0
    else if ("# ".toList).isPrefixOf (pyStrip l) then
      List.replicate depth endItemize
        ++ (sectionTok ++ (pyStrip l).drop 2 ++ ['\x7d']) :: simpleLoop ls 0
    else if ("## ".toList).isPrefixOf (pyStrip l) then
      List.replicate depth endItemize
        ++ (subsectionTok ++ (pyStrip l).drop 3 ++ ['\x7d']) :: simpleLoop ls 0
    else if ("### ".toList).isPrefixOf (pyStrip l) then
      List.replicate depth endItemize
        ++ (subsubsectionTok ++ (pyStrip l).drop 4 ++ ['\x7d']) :: simpleLoop ls 0
    else if ("- ".toList).isPrefixOf (pyStrip l) then
      if depth = 0 then
        beginItemize :: ("\\item ".toList ++ (pyStrip l).drop 2) :: simpleLoop ls 1
      else ("\\item ".toList ++ (pyStrip l).drop 2) :: simpleLoop ls depth
    else if ("**".toList).isPrefixOf (pyStrip l) && endsWithL ("**".toList) (pyStrip l) then
      ("\\textbf\x7b".toList
          ++ replaceList ("\x7d\x7d".toList) []
              (replaceList ("\x7b\x7b".toList) []
                (((pyStrip l).drop 2).take ((pyStrip l).length - 4)))
          ++ ['\x7d']) :: simpleLoop ls depth
    else if ("`".toList).isPrefixOf (pyStrip l) && endsWithL ("`".toList) (pyStrip l) then
      ("\\texttt\x7b".toList ++ ((pyStrip l).drop 1).take ((pyStrip l).length - 2)
          ++ ['\x7d']) :: simpleLoop ls depth
    else if pyStrip l = "---".toList then
      "\\vspace\x7b0.5cm\x7d".toList :: "\\hrule".toList :: "\\vspace\x7b0.5cm\x7d".toList
        :: simpleLoop ls depth
    else processedLine (pyStrip l) :: simpleLoop ls depth
  termination_by lines.length
  decreasing_by
    all_goals simp only [List.length_cons]
    any_goals omega
    · exact Nat.lt_succ_of_le (List.Sublist.length_le (List.dropWhile_sublist _))

/-- Function `_simple_markdown_to_latex` of src/latex_renderer.py:
split on newlines, run the conversion loop, rejoin. -/
def simple_markdown_to_latex (s : String) : String :=
  String.mk (joinLines '\n' (simpleLoop (splitOnChar '\n' s.toList) 0))

/-- A line containing `\begin{itemize}` (classified as the source loop
does: `'\begin{itemize}' in line` is tested first). -/
def isBeginC (l : List Char) : Bool := hasSubstr beginItemize l

/-- A line containing `\end{itemize}` but no `\begin{itemize}`. -/
def isEndC (l : List Char) : Bool := !hasSubstr beginItemize l && hasSubstr endItemize l

/-- A line starting with `\item` and carrying neither environment marker. -/
def isItemC (l : List Char) : Bool :=
  !hasSubstr beginItemize l && !hasSubstr endItemize l && itemTok.isPrefixOf l

/-- A line that is exactly `\begin{itemize}`. -/
def isBeginX (l : List Char) : Bool := l = beginItemize

/-- A line that is exactly `\end{itemize}`. -/
def isEndX (l : List Char) : Bool := l = endItemize

/-- A line starting with `\item`. -/
def isItemX (l : List Char) : Bool := itemTok.isPrefixOf l

/-- Validity scan for a list of output lines with respect to a begin/end/
item classification: begins open, ends close an open environment, items
need an open environment, and at the end everything is closed. -/
def scanOk (isB isE isI : List Char → Bool) : Nat → List (List Char) → Bool
  | d, [] => d == 0
  | d, l :: ls =>
    if isB l then scanOk isB isE isI (d + 1) ls
    else if isE l then (d != 0) && scanOk isB isE isI (d - 1) ls
    else if isI l then (d != 0) && scanOk isB isE isI d ls
    else scanOk isB isE isI d ls

/-- A successful scan yields the three balance properties: begins and ends
balance out (up to the starting depth), every prefix closes at most as much
as it opened, and every item line sits at positive depth. -/
theorem scanOk_balance (isB isE isI : List Char → Bool)
    (hBE : ∀ l, isB l = true → isE l = false)
    (hBI : ∀ l, isB l = true → isI l = false)
    (hEI : ∀ l, isE l = true → isI l = false) :
    ∀ (out : List (List Char)) (d : Nat), scanOk isB isE isI d out = true →
      List.countP isE out = List.countP isB out + d
        ∧ (∀ n, List.countP isE (out.take n) ≤ List.countP isB (out.take n) + d)
        ∧ (∀ n l, out[n]? = some l → isI l = true →
            List.countP isE (out.take n) < List.countP isB (out.take n) + d) := by
  intro out
  induction out with
  | nil =>
    intro d h
    have hd : d = 0 := by simpa [scanOk] using h
    subst hd
    refine ⟨by simp, fun n => by simp, fun n l hget _ => by simp at hget⟩
  | cons l t ih =>
    intro d h
    rw [scanOk] at h
    by_cases hB : isB l = true
    · rw [if_pos hB] at h
      obtain ⟨ha, hb, hc⟩ := ih (d + 1) h
      have hE : isE l = false := hBE l hB
      have hI : isI l = false := hBI l hB
      refine ⟨?_, ?_, ?_⟩
      · simp [List.countP_cons, hB, hE, ha]
        omega
      · intro n
        cases n with
        | zero => simp
        | succ n =>
          have := hb n
          simp [List.take_succ_cons, List.countP_cons, hB, hE]
          omega
      · intro n l' hget hI'
        cases n with
        | zero =>
          simp only [List.getElem?_cons_zero, Option.some_inj] at hget
          rw [← hget, hI] at hI'
          exact absurd hI' (by simp)
        | succ n =>
          simp only [List.getElem?_cons_succ] at hget
          have := hc n l' hget hI'
          simp [List.take_succ_cons, List.countP_cons, hB, hE]
          omega
    · rw [if_neg hB] at h
      have hBf : isB l = false := by simpa using hB
      by_cases hE : isE l = true
      · rw [if_pos hE] at h
        rw [Bool.and_eq_true] at h
        obtain ⟨h1, hscan⟩ := h
        have hd : d ≠ 0 := by simpa using h1
        obtain ⟨ha, hb, hc⟩ := ih (d - 1) hscan
        have hI : isI l = false := hEI l hE
        refine ⟨?_, ?_, ?_⟩
        · simp [List.countP_cons, hBf, hE, ha]
          omega
        · intro n
          cases n with
          | zero => simp
          | succ n =>
            have := hb n
            simp [List.take_succ_cons, List.countP_cons, hBf, hE]
            omega
        · intro n l' hget hI'
          cases n with
          | zero =>
            simp only [List.getElem?_cons_zero, Option.some_inj] at hget
            rw [← hget, hI] at hI'
            exact absurd hI' (by simp)
          | succ n =>
            simp only [List.getElem?_cons_succ] at hget
            have := hc n l' hget hI'
            simp [List.take_succ_cons, List.countP_cons, hBf, hE]
            omega
      · rw [if_neg hE] at h
        have hEf : isE l = false := by simpa using hE
        by_cases hI : isI l = true
        · rw [if_pos hI] at h
          rw [Bool.and_eq_true] at h
          obtain ⟨h1, hscan⟩ := h
          have hd : d ≠ 0 := by simpa using h1
          obtain ⟨ha, hb, hc⟩ := ih d hscan
          refine ⟨?_, ?_, ?_⟩
          · simp [List.countP_cons, hBf, hEf, ha]
          · intro n
            cases n with
            | zero => simp
            | succ n =>
              have := hb n
              simp [List.take_succ_cons, List.countP_cons, hBf, hEf]
              omega
          · intro n l' hget hI'
            cases n with
            | zero =>
              simp
              omega
            | succ n =>
              simp only [List.getElem?_cons_succ] at hget
              have := hc n l' hget hI'
              simp [List.take_succ_cons, List.countP_cons, hBf, hEf]
              omega
        · rw [if_neg hI] at h
          have hIf : isI l = false := by simpa using hI
          obtain ⟨ha, hb, hc⟩ := ih d h
          refine ⟨?_, ?_, ?_⟩
          · simp [List.countP_cons, hBf, hEf, ha]
          · intro n
            cases n with
            | zero => simp
            | succ n =>
              have := hb n
              simp [List.take_succ_cons, List.countP_cons, hBf, hEf]
              omega
          · intro n l' hget hI'
            cases n with
            | zero =>
              simp only [List.getElem?_cons_zero, Option.some_inj] at hget
              rw [← hget, hIf] at hI'
              exact absurd hI' (by simp)
            | succ n =>
              simp only [List.getElem?_cons_succ] at hget
              have := hc n l' hget hI'
              simp [List.take_succ_cons, List.countP_cons, hBf, hEf]
              omega

/-- A block of `d` closing lines brings the scan from depth `d` to 0. -/
theorem scanOk_replicate_end (isB isE isI : List Char → Bool)
    (hBe : isB endItemize = false) (hEe : isE endItemize = true) :
    ∀ (d : Nat) (rest : List (List Char)), scanOk isB isE isI 0 rest = true →
      scanOk isB isE isI d (List.replicate d endItemize ++ rest) = true := by
  intro d
  induction d with
  | zero => intro rest h; simpa using h
  | succ d ih =>
    intro rest h
    rw [List.replicate_succ, List.cons_append, scanOk, if_neg (by simp [hBe]), if_pos hEe]
    simp only [Nat.add_sub_cancel]
    rw [Bool.and_eq_true]
    exact ⟨by simp, ih rest h⟩

/-- Lines that are neither begins, ends nor items pass through the scan. -/
theorem scanOk_neutral_append (isB isE isI : List Char → Bool) :
    ∀ (mid : List (List Char)) (d : Nat) (rest : List (List Char)),
      (∀ l ∈ mid, isB l = false ∧ isE l = false ∧ isI l = false) →
      scanOk isB isE isI d rest = true → scanOk isB isE isI d (mid ++ rest) = true := by
  intro mid
  induction mid with
  | nil => intro d rest _ h; simpa using h
  | cons l t ih =>
    intro d rest hmid h
    obtain ⟨h1, h2, h3⟩ := hmid l (by simp)
    rw [List.cons_append, scanOk, if_neg (by simp [h1]), if_neg (by simp [h2]),
      if_neg (by simp [h3])]
    exact ih d rest (fun x hx => hmid x (by simp [hx])) h

/-- The output of the fixup loop always passes the scan, provided no
stripped input line carries a pre-existing `\end{itemize}` marker (such
markers pass through unchanged and can be orphaned, see the
counterexample). -/
theorem fixLoop_scanOk : ∀ (lines : List (List Char)) (depth : Nat),
    (∀ l ∈ lines, hasSubstr endItemize (pyStrip l) = false) →
    scanOk isBeginC isEndC isItemC depth (fixLoop lines depth) = true := by
  intro lines
  induction lines with
  | nil =>
    intro depth _
    rw [fixLoop]
    simpa using scanOk_replicate_end isBeginC isEndC isItemC (by decide) (by decide)
      depth [] (by simp [scanOk])
  | cons l ls ih =>
    intro depth hfix
    have hEnd : hasSubstr endItemize (pyStrip l) = false := hfix l (by simp)
    have hfix' : ∀ x ∈ ls, hasSubstr endItemize (pyStrip x) = false :=
      fun x hx => hfix x (by simp [hx])
    rw [fixLoop]
    by_cases hblank : (pyStrip l).isEmpty = true
    · rw [if_pos hblank]
      rw [scanOk, if_neg (by decide), if_neg (by decide), if_neg (by decide)]
      exact ih depth hfix'
    · rw [if_neg hblank]
      by_cases hBg : hasSubstr beginItemize (pyStrip l) = true
      · rw [if_pos hBg, scanOk, if_pos (by simpa [isBeginC] using hBg)]
        exact ih (depth + 1) hfix'
      · rw [if_neg hBg, if_neg (by simp [hEnd])]
        have hBgf : hasSubstr beginItemize (pyStrip l) = false := by simpa using hBg
        by_cases hIt : itemTok.isPrefixOf (pyStrip l) = true
        · rw [if_pos hIt]
          have hlineI : isItemC (pyStrip l) = true := by
            simp [isItemC, hBgf, hEnd, hIt]
          have hlineB : isBeginC (pyStrip l) = false := by simp [isBeginC, hBgf]
          have hlineE : isEndC (pyStrip l) = false := by simp [isEndC, hEnd]
          by_cases hd : depth = 0
          · subst hd
            rw [if_pos rfl, scanOk, if_pos (by decide)]
            rw [scanOk, if_neg (by simp [hlineB]), if_neg (by simp [hlineE]),
              if_pos hlineI]
            rw [Bool.and_eq_true]
            exact ⟨by simp, ih 1 hfix'⟩
          · rw [if_neg hd, scanOk, if_neg (by simp [hlineB]), if_neg (by simp [hlineE]),
              if_pos hlineI]
            rw [Bool.and_eq_true]
            exact ⟨by simpa using hd, ih depth hfix'⟩
        · rw [if_neg hIt]
          have hItf : itemTok.isPrefixOf (pyStrip l) = false := Bool.eq_false_iff.mpr hIt
          have hlineB : isBeginC (pyStrip l) = false := by simp [isBeginC, hBgf]
          have hlineE : isEndC (pyStrip l) = false := by simp [isEndC, hEnd]
          have hlineI : isItemC (pyStrip l) = false := by simp [isItemC, hItf]
          by_cases hH : isHeaderStart (pyStrip l) = true
          · rw [if_pos hH]
            refine scanOk_replicate_end isBeginC isEndC isItemC (by decide) (by decide)
              depth _ ?_
            rw [scanOk, if_neg (by simp [hlineB]), if_neg (by simp [hlineE]),
              if_neg (by simp [hlineI])]
            exact ih 0 hfix'
          · rw [if_neg hH, scanOk, if_neg (by simp [hlineB]), if_neg (by simp [hlineE]),
              if_neg (by simp [hlineI])]
            exact ih depth hfix'

/-- Boolean prefix test versus `take`. -/
theorem isPrefixOf_iff_take (a : List Char) : ∀ b : List Char,
    a.isPrefixOf b = true ↔ b.take a.length = a := by
  induction a with
  | nil => intro b; simp [List.isPrefixOf]
  | cons x xs ih =>
    intro b
    cases b with
    | nil => simp [List.isPrefixOf]
    | cons y ys =>
      rw [List.isPrefixOf, Bool.and_eq_true]
      simp only [List.length_cons, List.take_succ_cons, beq_iff_eq]
      constructor
      · rintro ⟨h1, h2⟩
        rw [(ih ys).mp h2, h1]
      · intro h
        injection h with h1 h2
        exact ⟨h1.symm, (ih ys).mpr h2⟩

/-- Two lists that differ on a `take` inside the concrete part differ. -/
theorem ne_of_take_ne (conc x tok : List Char) (k : Nat) (hk : k ≤ conc.length)
    (hne : conc.take k ≠ tok.take k) : conc ++ x ≠ tok := by
  intro heq
  apply hne
  rw [← heq, List.take_append_of_le_length hk]

/-- A token cannot be a prefix of `conc ++ x` when it differs from `conc`
within the first `k` characters. -/
theorem not_isPrefixOf_of_take_ne (conc x tok : List Char) (k : Nat)
    (hk : k ≤ conc.length) (hk2 : k ≤ tok.length) (hne : conc.take k ≠ tok.take k) :
    tok.isPrefixOf (conc ++ x) = false := by
  by_cases h : tok.isPrefixOf (conc ++ x) = true
  · exfalso
    have htake := (isPrefixOf_iff_take tok (conc ++ x)).mp h
    apply hne
    have : ((conc ++ x).take tok.length).take k = tok.take k := by rw [htake]
    rw [List.take_take, min_eq_left hk2, List.take_append_of_le_length hk] at this
    exact this
  · exact Bool.eq_false_iff.mpr h

/-- A line with the `\item` prefix starts with `\` then `i`. -/
theorem itemPrefix_shape (l : List Char) (h : itemTok.isPrefixOf l = true) :
    ∃ t, l = '\\' :: 'i' :: t := by
  have hconst : itemTok = ['\\', 'i', 't', 'e', 'm'] := by decide
  have htake := (isPrefixOf_iff_take itemTok l).mp h
  rw [hconst] at htake
  cases l with
  | nil => simp at htake
  | cons c t =>
    cases t with
    | nil => simp at htake
    | cons c' t' =>
      simp only [List.length_cons, List.length_nil, List.take_succ_cons,
        Nat.zero_add] at htake
      injection htake with h1 htail
      injection htail with h2 _
      exact ⟨t', by rw [h1, h2]⟩

/-- The characters allowed right after a backslash in text produced by the
escaping pipeline: `t` (from `\text...` commands), `g`/`l` (from
`\geq`/`\leq`), a space or another backslash (row terminators `\\`). -/
def okC : List Char := ['t', 'g', 'l', ' ', '\\']

/-- Head condition of `bsNextOk`: a backslash must be followed by an
allowed character, if anything follows. -/
def bsOkHead (ok : List Char) (c : Char) (t : List Char) : Bool :=
  if c = '\\' then
    match t with
    | [] => true
    | c' :: _ => ok.contains c'
  else true

/-- Every backslash is followed by an allowed character (or ends the
list). -/
def bsNextOk (ok : List Char) : List Char → Bool
  | [] => true
  | c :: t => bsOkHead ok c t && bsNextOk ok t

/-- A tail of an allowed list is allowed. -/
theorem bsNextOk_tail (ok : List Char) (c : Char) (t : List Char)
    (h : bsNextOk ok (c :: t) = true) : bsNextOk ok t = true := by
  rw [bsNextOk, Bool.and_eq_true] at h
  exact h.2

/-- Dropping a prefix preserves allowedness. -/
theorem bsNextOk_drop (ok : List Char) : ∀ (l : List Char) (n : Nat),
    bsNextOk ok l = true → bsNextOk ok (l.drop n) = true := by
  intro l
  induction l with
  | nil => intro n h; simpa using h
  | cons c t ih =>
    intro n h
    cases n with
    | zero => simpa using h
    | succ n => exact ih n (bsNextOk_tail ok c t h)

/-- `replaceList` keeps the head when it cannot match there. -/
theorem head_replaceList (pat rep l : List Char) (p c : Char)
    (hp : pat.head? = some p) (hl : l.head? = some c) (hne : c ≠ p) :
    (replaceList pat rep l).head? = some c := by
  cases l with
  | nil => simp at hl
  | cons c' t =>
    simp only [List.head?_cons, Option.some_inj] at hl
    subst hl
    cases pat with
    | nil => simp at hp
    | cons p' pt =>
      simp only [List.head?_cons, Option.some_inj] at hp
      subst hp
      rw [replaceList, dif_neg]
      · simp
      · rintro ⟨hpre, -⟩
        rw [List.isPrefixOf, Bool.and_eq_true, beq_iff_eq] at hpre
        exact hne hpre.1.symm

/-- Concatenation of allowed lists is allowed, provided a backslash ending
the first part is followed by an allowed head of the second. -/
theorem bsNextOk_append (ok : List Char) : ∀ (a b : List Char),
    bsNextOk ok a = true → bsNextOk ok b = true →
    (∀ c, a.getLast? = some '\\' → b.head? = some c → ok.contains c = true) →
    bsNextOk ok (a ++ b) = true := by
  intro a
  induction a with
  | nil => intro b _ hb _; simpa using hb
  | cons c t ih =>
    intro b ha hb hbd
    rw [bsNextOk, Bool.and_eq_true] at ha
    obtain ⟨hc, ht⟩ := ha
    rw [List.cons_append, bsNextOk, Bool.and_eq_true]
    refine ⟨?_, ?_⟩
    · cases t with
      | nil =>
        simp only [List.nil_append]
        by_cases hbs : c = '\\'
        · rw [bsOkHead.eq_def, if_pos hbs]
          cases b with
          | nil => rfl
          | cons b0 bs =>
            exact hbd b0 (by simp [hbs]) (by simp)
        · rw [bsOkHead.eq_def, if_neg hbs]
      | cons t0 ts =>
        by_cases hbs : c = '\\'
        · rw [bsOkHead.eq_def, if_pos hbs]
          rw [bsOkHead.eq_def, if_pos hbs] at hc
          simpa using hc
        · rw [bsOkHead.eq_def, if_neg hbs]
    · refine ih b ht hb ?_
      intro c' hlast hhead
      refine hbd c' ?_ hhead
      cases t with
      | nil => simp at hlast
      | cons t0 ts => simpa using hlast

/-- Bounded-length auxiliary form of the backslash-replacement lemma. -/
theorem bsNextOk_replaceBS_aux : ∀ (n : Nat) (l : List Char), l.length ≤ n →
    bsNextOk okC (replaceList ("\\".toList) ("\\textbackslash\x7b\x7d".toList) l) = true := by
  intro n
  induction n with
  | zero =>
    intro l hl
    have : l = [] := List.eq_nil_of_length_eq_zero (Nat.le_zero.mp hl)
    subst this
    rw [replaceList]
    rfl
  | succ n ih =>
    intro l hl
    cases l with
    | nil => rw [replaceList]; rfl
    | cons c t =>
      by_cases hmatch : ("\\".toList).isPrefixOf (c :: t) = true ∧ ("\\".toList) ≠ []
      · rw [replaceList, dif_pos hmatch]
        refine bsNextOk_append okC _ _ (by decide) ?_ ?_
        · refine ih _ ?_
          simp only [List.length_cons] at hl
          simp
          omega
        · intro c' hlast _
          exact absurd hlast (by decide)
      · rw [replaceList, dif_neg hmatch]
        have hcne : c ≠ '\\' := by
          intro hc
          exact hmatch ⟨by simp [hc, List.isPrefixOf], by simp⟩
        rw [bsNextOk, Bool.and_eq_true]
        refine ⟨by rw [bsOkHead.eq_def, if_neg hcne], ?_⟩
        refine ih t ?_
        simp only [List.length_cons] at hl
        omega

/-- The final backslash replacement of `_escape_latex` leaves every
backslash followed by a `t` (from `\textbackslash{}`). -/
theorem bsNextOk_replaceBS (l : List Char) :
    bsNextOk okC (replaceList ("\\".toList) ("\\textbackslash\x7b\x7d".toList) l) = true :=
  bsNextOk_replaceBS_aux l.length l le_rfl

/-- Bounded-length auxiliary form of the preservation of `bsNextOk` by a
replacement whose pattern head is neither a backslash nor an allowed
post-backslash character and whose replacement is itself allowed and does
not end in a backslash. -/
theorem bsNextOk_replaceList_aux (pat rep : List Char) (p : Char)
    (hp : pat.head? = some p) (hpb : p ≠ '\\') (hpo : okC.contains p = false)
    (hrep : bsNextOk okC rep = true) (hlast : rep.getLast? ≠ some '\\') :
    ∀ (n : Nat) (l : List Char), l.length ≤ n → bsNextOk okC l = true →
      bsNextOk okC (replaceList pat rep l) = true := by
  intro n
  induction n with
  | zero =>
    intro l hl _
    have : l = [] := List.eq_nil_of_length_eq_zero (Nat.le_zero.mp hl)
    subst this
    rw [replaceList]
    rfl
  | succ n ih =>
    intro l hl hok
    cases l with
    | nil => rw [replaceList]; rfl
    | cons c t =>
      by_cases hmatch : pat.isPrefixOf (c :: t) = true ∧ pat ≠ []
      · rw [replaceList, dif_pos hmatch]
        refine bsNextOk_append okC _ _ hrep ?_ ?_
        · refine ih _ ?_ (bsNextOk_drop okC _ _ hok)
          simp only [List.length_cons] at hl
          simp only [List.length_drop, List.length_cons]
          have hplen : 1 ≤ pat.length := by
            cases hpe : pat with
            | nil => rw [hpe] at hp; simp at hp
            | cons a b => simp
          omega
        · intro c' hl' _
          exact absurd hl' hlast
      · rw [replaceList, dif_neg hmatch]
        rw [bsNextOk, Bool.and_eq_true] at hok
        obtain ⟨hhead, htail⟩ := hok
        rw [bsNextOk, Bool.and_eq_true]
        have hrec : bsNextOk okC (replaceList pat rep t) = true := by
          refine ih t ?_ htail
          simp only [List.length_cons] at hl
          omega
        refine ⟨?_, hrec⟩
        by_cases hbs : c = '\\'
        · rw [bsOkHead.eq_def, if_pos hbs]
          rw [bsOkHead.eq_def, if_pos hbs] at hhead
          cases t with
          | nil => rw [replaceList]
          | cons t0 ts =>
            have ht0 : okC.contains t0 = true := by simpa using hhead
            have ht0p : t0 ≠ p := by
              intro he
              rw [he, hpo] at ht0
              exact absurd ht0 (by simp)
            have := head_replaceList pat rep (t0 :: ts) p t0 hp (by simp) ht0p
            cases hre : replaceList pat rep (t0 :: ts) with
            | nil => rfl
            | cons r0 rs =>
              rw [hre] at this
              simp only [List.head?_cons, Option.some_inj] at this
              rw [← this] at ht0
              simpa using ht0
        · rw [bsOkHead.eq_def, if_neg hbs]

/-- Preservation of `bsNextOk` by one post-escape replacement. -/
theorem bsNextOk_replaceList (pat rep : List Char) (p : Char)
    (hp : pat.head? = some p) (hpb : p ≠ '\\') (hpo : okC.contains p = false)
    (hrep : bsNextOk okC rep = true) (hlast : rep.getLast? ≠ some '\\')
    (l : List Char) (hok : bsNextOk okC l = true) :
    bsNextOk okC (replaceList pat rep l) = true :=
  bsNextOk_replaceList_aux pat rep p hp hpb hpo hrep hlast l.length l le_rfl hok

/-- Escaped text is backslash-disciplined. -/
theorem bsNextOk_escape (l : List Char) : bsNextOk okC (escape_latex l) = true :=
  bsNextOk_replaceBS _

/-- Fully processed else-branch lines are backslash-disciplined. -/
theorem bsNextOk_processed (l : List Char) : bsNextOk okC (processedLine l) = true := by
  rw [processedLine]
  refine bsNextOk_replaceList _ _ '\x7d' (by decide) (by decide) (by decide) (by decide)
    (by decide) _ ?_
  refine bsNextOk_replaceList _ _ '\x7b' (by decide) (by decide) (by decide) (by decide)
    (by decide) _ ?_
  refine bsNextOk_replaceList _ _ '<' (by decide) (by decide) (by decide) (by decide)
    (by decide) _ ?_
  refine bsNextOk_replaceList _ _ '>' (by decide) (by decide) (by decide) (by decide)
    (by decide) _ ?_
  refine bsNextOk_replaceList _ _ '≤' (by decide) (by decide) (by decide) (by decide)
    (by decide) _ ?_
  refine bsNextOk_replaceList _ _ '≥' (by decide) (by decide) (by decide) (by decide)
    (by decide) _ ?_
  exact bsNextOk_escape l

/-- Joined escaped cells are backslash-disciplined. -/
theorem bsNextOk_joinCells : ∀ cells : List (List Char),
    (∀ c ∈ cells, bsNextOk okC c = true) → bsNextOk okC (joinCells cells) = true := by
  intro cells
  induction cells with
  | nil => intro _; rfl
  | cons c cs ih =>
    intro hcells
    cases cs with
    | nil => exact hcells c (by simp)
    | cons c2 cs2 =>
      show bsNextOk okC (c ++ " & ".toList ++ joinCells (c2 :: cs2)) = true
      rw [List.append_assoc]
      refine bsNextOk_append okC _ _ (hcells c (by simp)) ?_ ?_
      · refine bsNextOk_append okC _ _ (by decide) (ih ?_) ?_
        · intro x hx
          exact hcells x (by simp [hx])
        · intro c' hl' _
          exact absurd hl' (by decide)
      · intro c' _ hh
        have hconst : " & ".toList = ' ' :: '&' :: [' '] := by decide
        rw [hconst] at hh
        simp only [List.cons_append, List.head?_cons, Option.some_inj] at hh
        rw [← hh]
        decide

/-- Every `tabular` row line is backslash-disciplined. -/
theorem bsNextOk_rowLine (cells : List (List Char)) :
    bsNextOk okC (rowLine cells) = true := by
  rw [rowLine]
  refine bsNextOk_append okC _ _ ?_ (by decide) ?_
  · refine bsNextOk_joinCells _ ?_
    intro c hc
    rcases List.mem_map.mp hc with ⟨x, _, hx⟩
    rw [← hx]
    exact bsNextOk_escape x
  · intro c' _ hh
    have hconst : " \\\\".toList = ' ' :: '\\' :: ['\\'] := by decide
    rw [hconst] at hh
    simp only [List.head?_cons, Option.some_inj] at hh
    rw [← hh]
    decide

/-- A backslash-disciplined line is not an itemize marker line and not an
item line: the character after its leading backslash (if any) is none of
`b`, `e`, `i`. -/
theorem not_tok_of_bsNextOk (l : List Char) (h : bsNextOk okC l = true) :
    isBeginX l = false ∧ isEndX l = false ∧ isItemX l = false := by
  refine ⟨?_, ?_, ?_⟩
  · by_cases heq : l = beginItemize
    · rw [heq] at h
      exact absurd h (by decide)
    · simp [isBeginX, heq]
  · by_cases heq : l = endItemize
    · rw [heq] at h
      exact absurd h (by decide)
    · simp [isEndX, heq]
  · by_cases hpre : itemTok.isPrefixOf l = true
    · obtain ⟨t, ht⟩ := itemPrefix_shape l hpre
      rw [ht] at h
      rw [bsNextOk, Bool.and_eq_true] at h
      have := h.1
      rw [bsOkHead.eq_def, if_pos rfl] at this
      change okC.contains 'i' = true at this
      exact absurd this (by decide)
    · simpa [isItemX] using Bool.eq_false_iff.mpr hpre

/-- A line made of a concrete head that differs early enough from all three
itemize markers is classified as none of them, whatever follows. -/
theorem neutral_of_take (conc x : List Char) (kb ke ki : Nat)
    (hkb1 : kb ≤ conc.length) (hkb2 : kb ≤ beginItemize.length)
    (hb : conc.take kb ≠ beginItemize.take kb)
    (hke1 : ke ≤ conc.length) (hke2 : ke ≤ endItemize.length)
    (he : conc.take ke ≠ endItemize.take ke)
    (hki1 : ki ≤ conc.length) (hki2 : ki ≤ itemTok.length)
    (hi : conc.take ki ≠ itemTok.take ki) :
    isBeginX (conc ++ x) = false ∧ isEndX (conc ++ x) = false
      ∧ isItemX (conc ++ x) = false := by
  refine ⟨?_, ?_, ?_⟩
  · have := ne_of_take_ne conc x beginItemize kb hkb1 hb
    simp [isBeginX, this]
  · have := ne_of_take_ne conc x endItemize ke hke1 he
    simp [isEndX, this]
  · rw [isItemX]
    exact not_isPrefixOf_of_take_ne conc x itemTok ki hki1 hki2 hi

/-- No line emitted by the table converter is an itemize marker or an item
line. -/
theorem table_lines_neutral (tbl : List (List Char)) :
    ∀ l ∈ markdown_table_to_latex tbl,
      isBeginX l = false ∧ isEndX l = false ∧ isItemX l = false := by
  intro l hl
  rw [markdown_table_to_latex] at hl
  cases hrows : tbl.map (fun ln => (splitOnChar '|' (stripChar '|' ln)).map pyStrip) with
  | nil =>
    rw [hrows] at hl
    simp at hl
  | cons header rest =>
    rw [hrows] at hl
    simp only [List.mem_cons, List.mem_append, List.mem_flatMap,
      List.mem_singleton] at hl
    have hrow : ∀ cells : List (List Char),
        isBeginX (rowLine cells) = false ∧ isEndX (rowLine cells) = false
          ∧ isItemX (rowLine cells) = false :=
      fun cells => not_tok_of_bsNextOk _ (bsNextOk_rowLine cells)
    rcases hl with h1 | h2 | h3 | h4 | ⟨row, -, hr | hh | hf⟩ | h6 | hf2
    · rw [h1, List.append_assoc]
      exact neutral_of_take _ _ 8 3 3 (by decide) (by decide) (by decide) (by decide)
        (by decide) (by decide) (by decide) (by decide) (by decide)
    · rw [h2]
      exact ⟨by decide, by decide, by decide⟩
    · rw [h3]
      exact hrow header
    · rw [h4]
      exact ⟨by decide, by decide, by decide⟩
    · rw [hr]
      exact hrow row
    · rw [hh]
      exact ⟨by decide, by decide, by decide⟩
    · simp at hf
    · rw [h6]
      exact ⟨by decide, by decide, by decide⟩
    · simp at hf2

/-- An emitted `\item ` line is an item line. -/
theorem itemPrefix_append (x : List Char) :
    itemTok.isPrefixOf ("\\item ".toList ++ x) = true := by
  rw [isPrefixOf_iff_take]
  rw [List.take_append_of_le_length (by decide)]
  decide

/-- One scan step across a line that is none of the three marker kinds. -/
theorem scanOk_neutral_cons (l : List Char) (d : Nat) (rest : List (List Char))
    (h1 : isBeginX l = false) (h2 : isEndX l = false) (h3 : isItemX l = false)
    (hrest : scanOk isBeginX isEndX isItemX d rest = true) :
    scanOk isBeginX isEndX isItemX d (l :: rest) = true := by
  rw [scanOk, if_neg (by simp [h1]), if_neg (by simp [h2]), if_neg (by simp [h3])]
  exact hrest

/-- A `\begin{itemize}` line emitted by the converter opens one level. -/
theorem scanOk_begin_cons (rest : List (List Char)) (d : Nat)
    (hrest : scanOk isBeginX isEndX isItemX (d + 1) rest = true) :
    scanOk isBeginX isEndX isItemX d (beginItemize :: rest) = true := by
  rw [scanOk, if_pos (by decide)]
  exact hrest

/-- An `\item ` line emitted by the converter needs an open level. -/
theorem scanOk_item_cons (x : List Char) (rest : List (List Char)) (d : Nat)
    (hd : d ≠ 0) (hrest : scanOk isBeginX isEndX isItemX d rest = true) :
    scanOk isBeginX isEndX isItemX d (("\\item ".toList ++ x) :: rest) = true := by
  rw [scanOk]
  rw [if_neg (by
    simp only [Bool.not_eq_true]
    have h9 := ne_of_take_ne ("\\item ".toList) x beginItemize 3 (by decide) (by decide)
    simp only [isBeginX]
    simpa using h9)]
  rw [if_neg (by
    simp only [Bool.not_eq_true]
    have h9 := ne_of_take_ne ("\\item ".toList) x endItemize 3 (by decide) (by decide)
    simp only [isEndX]
    simpa using h9)]
  rw [if_pos (by rw [isItemX]; exact itemPrefix_append _)]
  rw [Bool.and_eq_true]
  exact ⟨by simpa using hd, hrest⟩

/-- The output of the fallback converter loop always passes the scan with
the exact-line classification: the only `\begin{itemize}`/`\end{itemize}`
lines it emits are its own, properly nested ones, and every `\item` line it
emits sits inside an open environment. -/
theorem simpleLoop_scanOk (lines : List (List Char)) (depth : Nat) :
    scanOk isBeginX isEndX isItemX depth (simpleLoop lines depth) = true := by
  induction lines, depth using simpleLoop.induct with
  | case1 depth =>
    rw [simpleLoop]
    simpa using scanOk_replicate_end isBeginX isEndX isItemX (by decide) (by decide)
      depth [] (by simp [scanOk])
  | case2 depth l ls hblank ih =>
    rw [simpleLoop.eq_def]
    simp only [hblank, if_pos]
    exact scanOk_neutral_cons [] depth _ (by decide) (by decide) (by decide) ih
  | case3 depth l ls hblank htbl ih =>
    rw [simpleLoop.eq_def]
    simp only [if_neg hblank, if_pos htbl]
    rw [List.append_assoc]
    refine scanOk_replicate_end isBeginX isEndX isItemX (by decide) (by decide) depth _ ?_
    refine scanOk_neutral_append isBeginX isEndX isItemX _ 0 _ (table_lines_neutral _) ih
  | case4 depth l ls hblank htbl hh1 ih =>
    rw [simpleLoop.eq_def]
    simp only [if_neg hblank, if_neg htbl, if_pos hh1]
    refine scanOk_replicate_end isBeginX isEndX isItemX (by decide) (by decide) depth _ ?_
    refine scanOk_neutral_cons _ 0 _ ?_ ?_ ?_ ih
    · exact (neutral_of_take sectionTok _ 3 3 3 (by decide) (by decide) (by decide)
        (by decide) (by decide) (by decide) (by decide) (by decide) (by decide)).1
    · exact (neutral_of_take sectionTok _ 3 3 3 (by decide) (by decide) (by decide)
        (by decide) (by decide) (by decide) (by decide) (by decide) (by decide)).2.1
    · exact (neutral_of_take sectionTok _ 3 3 3 (by decide) (by decide) (by decide)
        (by decide) (by decide) (by decide) (by decide) (by decide) (by decide)).2.2
  | case5 depth l ls hblank htbl hh1 hh2 ih =>
    rw [simpleLoop.eq_def]
    simp only [if_neg hblank, if_neg htbl, if_neg hh1, if_pos hh2]
    refine scanOk_replicate_end isBeginX isEndX isItemX (by decide) (by decide) depth _ ?_
    refine scanOk_neutral_cons _ 0 _ ?_ ?_ ?_ ih
    · exact (neutral_of_take subsectionTok _ 3 3 3 (by decide) (by decide) (by decide)
        (by decide) (by decide) (by decide) (by decide) (by decide) (by decide)).1
    · exact (neutral_of_take subsectionTok _ 3 3 3 (by decide) (by decide) (by decide)
        (by decide) (by decide) (by decide) (by decide) (by decide) (by decide)).2.1
    · exact (neutral_of_take subsectionTok _ 3 3 3 (by decide) (by decide) (by decide)
        (by decide) (by decide) (by decide) (by decide) (by decide) (by decide)).2.2
  | case6 depth l ls hblank htbl hh1 hh2 hh3 ih =>
    rw [simpleLoop.eq_def]
    simp only [if_neg hblank, if_neg htbl, if_neg hh1, if_neg hh2, if_pos hh3]
    refine scanOk_replicate_end isBeginX isEndX isItemX (by decide) (by decide) depth _ ?_
    refine scanOk_neutral_cons _ 0 _ ?_ ?_ ?_ ih
    · exact (neutral_of_take subsubsectionTok _ 3 3 3 (by decide) (by decide) (by decide)
        (by decide) (by decide) (by decide) (by decide) (by decide) (by decide)).1
    · exact (neutral_of_take subsubsectionTok _ 3 3 3 (by decide) (by decide) (by decide)
        (by decide) (by decide) (by decide) (by decide) (by decide) (by decide)).2.1
    · exact (neutral_of_take subsubsectionTok _ 3 3 3 (by decide) (by decide) (by decide)
        (by decide) (by decide) (by decide) (by decide) (by decide) (by decide)).2.2
  | case7 l ls hblank htbl hh1 hh2 hh3 hitem ih =>
    rw [simpleLoop.eq_def]
    simp only [if_neg hblank, if_neg htbl, if_neg hh1, if_neg hh2, if_neg hh3,
      if_pos hitem, if_pos rfl]
    exact scanOk_begin_cons _ 0 (scanOk_item_cons _ _ 1 (by decide) ih)
  | case8 depth l ls hblank htbl hh1 hh2 hh3 hitem hdep ih =>
    rw [simpleLoop.eq_def]
    simp only [if_neg hblank, if_neg htbl, if_neg hh1, if_neg hh2, if_neg hh3,
      if_pos hitem, if_neg hdep]
    exact scanOk_item_cons _ _ depth hdep ih
  | case9 depth l ls hblank htbl hh1 hh2 hh3 hitem hbold ih =>
    rw [simpleLoop.eq_def]
    simp only [if_neg hblank, if_neg htbl, if_neg hh1, if_neg hh2, if_neg hh3,
      if_neg hitem, if_pos hbold]
    refine scanOk_neutral_cons _ depth _ ?_ ?_ ?_ ih
    · exact (neutral_of_take ("\\textbf\x7b".toList) _ 3 3 3 (by decide) (by decide)
        (by decide) (by decide) (by decide) (by decide) (by decide) (by decide)
        (by decide)).1
    · exact (neutral_of_take ("\\textbf\x7b".toList) _ 3 3 3 (by decide) (by decide)
        (by decide) (by decide) (by decide) (by decide) (by decide) (by decide)
        (by decide)).2.1
    · exact (neutral_of_take ("\\textbf\x7b".toList) _ 3 3 3 (by decide) (by decide)
        (by decide) (by decide) (by decide) (by decide) (by decide) (by decide)
        (by decide)).2.2
  | case10 depth l ls hblank htbl hh1 hh2 hh3 hitem hbold htt ih =>
    rw [simpleLoop.eq_def]
    simp only [if_neg hblank, if_neg htbl, if_neg hh1, if_neg hh2, if_neg hh3,
      if_neg hitem, if_neg hbold, if_pos htt]
    refine scanOk_neutral_cons _ depth _ ?_ ?_ ?_ ih
    · exact (neutral_of_take ("\\texttt\x7b".toList) _ 3 3 3 (by decide) (by decide)
        (by decide) (by decide) (by decide) (by decide) (by decide) (by decide)
        (by decide)).1
    · exact (neutral_of_take ("\\texttt\x7b".toList) _ 3 3 3 (by decide) (by decide)
        (by decide) (by decide) (by decide) (by decide) (by decide) (by decide)
        (by decide)).2.1
    · exact (neutral_of_take ("\\texttt\x7b".toList) _ 3 3 3 (by decide) (by decide)
        (by decide) (by decide) (by decide) (by decide) (by decide) (by decide)
        (by decide)).2.2
  | case11 depth l ls hblank htbl hh1 hh2 hh3 hitem hbold htt hdash ih =>
    rw [simpleLoop.eq_def]
    simp only [if_neg hblank, if_neg htbl, if_neg hh1, if_neg hh2, if_neg hh3,
      if_neg hitem, if_neg hbold, if_neg htt, if_pos hdash]
    refine scanOk_neutral_cons _ depth _ (by decide) (by decide) (by decide) ?_
    refine scanOk_neutral_cons _ depth _ (by decide) (by decide) (by decide) ?_
    exact scanOk_neutral_cons _ depth _ (by decide) (by decide) (by decide) ih
  | case12 depth l ls hblank htbl hh1 hh2 hh3 hitem hbold htt hdash ih =>
    rw [simpleLoop.eq_def]
    simp only [if_neg hblank, if_neg htbl, if_neg hh1, if_neg hh2, if_neg hh3,
      if_neg hitem, if_neg hbold, if_neg htt, if_neg hdash]
    obtain ⟨n1, n2, n3⟩ := not_tok_of_bsNextOk _ (bsNextOk_processed (pyStrip l))
    exact scanOk_neutral_cons _ depth _ n1 n2 n3 ih

/-- Splitting never returns an empty chunk list. -/
theorem splitOnChar_ne_nil (sep : Char) (l : List Char) : splitOnChar sep l ≠ [] := by
  cases l with
  | nil => simp [splitOnChar]
  | cons c t =>
    rw [splitOnChar]
    by_cases h : c = sep
    · simp [h]
    · simp only [if_neg h]
      cases splitOnChar sep t with
      | nil => simp
      | cons h' t' => simp

/-- Chunks produced by splitting do not contain the separator. -/
theorem splitOnChar_not_mem (sep : Char) : ∀ l : List Char, ∀ m ∈ splitOnChar sep l,
    sep ∉ m := by
  intro l
  induction l with
  | nil => intro m hm; simp [splitOnChar] at hm; simp [hm]
  | cons c t ih =>
    intro m hm
    rw [splitOnChar] at hm
    by_cases h : c = sep
    · rw [if_pos h] at hm
      rcases List.mem_cons.mp hm with h1 | h2
      · simp [h1]
      · exact ih m h2
    · rw [if_neg h] at hm
      cases hsplit : splitOnChar sep t with
      | nil => exact absurd hsplit (splitOnChar_ne_nil sep t)
      | cons m0 ms =>
        rw [hsplit] at hm
        rcases List.mem_cons.mp hm with h1 | h2
        · rw [h1]
          intro hmem
          rcases List.mem_cons.mp hmem with hc | hmem2
          · exact h hc.symm
          · exact ih m0 (by rw [hsplit]; simp) hmem2
        · exact ih m (by rw [hsplit]; simp [h2])

/-- Splitting a separator-free chunk returns just that chunk. -/
theorem splitOnChar_of_not_mem (sep : Char) : ∀ l : List Char, sep ∉ l →
    splitOnChar sep l = [l] := by
  intro l
  induction l with
  | nil => intro _; rfl
  | cons c t ih =>
    intro hmem
    have hc : c ≠ sep := fun h => hmem (by simp [h])
    have ht : sep ∉ t := fun h => hmem (by simp [h])
    rw [splitOnChar, if_neg hc, ih ht]

/-- Splitting after joining with a fresh separator recovers the chunks. -/
theorem splitOnChar_joinLines (sep : Char) : ∀ lines : List (List Char), lines ≠ [] →
    (∀ m ∈ lines, sep ∉ m) → splitOnChar sep (joinLines sep lines) = lines := by
  have hstep : ∀ (l rest : List Char), sep ∉ l →
      splitOnChar sep (l ++ sep :: rest) = l :: splitOnChar sep rest := by
    intro l
    induction l with
    | nil => intro rest _; simp [splitOnChar]
    | cons c t ih =>
      intro rest hmem
      have hc : c ≠ sep := fun h => hmem (by simp [h])
      have ht : sep ∉ t := fun h => hmem (by simp [h])
      rw [List.cons_append, splitOnChar, if_neg hc, ih rest ht]
  intro lines
  induction lines with
  | nil => intro h _; exact absurd rfl h
  | cons l ls ih =>
    intro _ hmem
    cases ls with
    | nil =>
      rw [joinLines]
      exact splitOnChar_of_not_mem sep l (hmem l (by simp))
    | cons l2 ls2 =>
      rw [show joinLines sep (l :: l2 :: ls2) = l ++ sep :: joinLines sep (l2 :: ls2)
        from rfl]
      rw [hstep l _ (hmem l (by simp))]
      rw [ih (by simp) (fun m hm => hmem m (by simp [hm]))]

/-- Stripping keeps only characters of the original line. -/
theorem mem_pyStrip (l : List Char) (c : Char) (h : c ∈ pyStrip l) : c ∈ l := by
  rw [pyStrip] at h
  rw [List.mem_reverse] at h
  have h2 := (@List.dropWhile_sublist _ ((l.dropWhile Char.isWhitespace).reverse)
    Char.isWhitespace).mem h
  rw [List.mem_reverse] at h2
  exact (@List.dropWhile_sublist _ l Char.isWhitespace).mem h2

/-- Bounded-length auxiliary: characters of a replacement result come from
the replacement string or the original. -/
theorem mem_replaceList_aux (pat rep : List Char) : ∀ (n : Nat) (l : List Char),
    l.length ≤ n → ∀ c ∈ replaceList pat rep l, c ∈ rep ∨ c ∈ l := by
  intro n
  induction n with
  | zero =>
    intro l hl c hc
    have : l = [] := List.eq_nil_of_length_eq_zero (Nat.le_zero.mp hl)
    subst this
    rw [replaceList] at hc
    simp at hc
  | succ n ih =>
    intro l hl c hc
    cases l with
    | nil => rw [replaceList] at hc; simp at hc
    | cons c0 t =>
      by_cases hmatch : pat.isPrefixOf (c0 :: t) = true ∧ pat ≠ []
      · rw [replaceList, dif_pos hmatch] at hc
        rcases List.mem_append.mp hc with h1 | h2
        · exact Or.inl h1
        · have hplen : 1 ≤ pat.length := by
            cases hpe : pat with
            | nil => exact absurd hpe hmatch.2
            | cons a b => simp
          have hdrop := ih ((c0 :: t).drop pat.length) (by
            simp only [List.length_drop, List.length_cons]
            simp only [List.length_cons] at hl
            omega) c h2
          rcases hdrop with h3 | h4
          · exact Or.inl h3
          · exact Or.inr ((List.drop_sublist _ _).mem h4)
      · rw [replaceList, dif_neg hmatch] at hc
        rcases List.mem_cons.mp hc with h1 | h2
        · exact Or.inr (by simp [h1])
        · rcases ih t (by simp only [List.length_cons] at hl; omega) c h2 with h3 | h4
          · exact Or.inl h3
          · exact Or.inr (by simp [h4])

/-- Characters of a replacement result come from the replacement string or
the original. -/
theorem mem_replaceList (pat rep l : List Char) (c : Char)
    (hc : c ∈ replaceList pat rep l) : c ∈ rep ∨ c ∈ l :=
  mem_replaceList_aux pat rep l.length l le_rfl c hc

/-- Members of an interspersed list are the separator or original members. -/
theorem mem_of_mem_intersperse {α : Type} (sep : α) : ∀ (xs : List α) (x : α),
    x ∈ List.intersperse sep xs → x = sep ∨ x ∈ xs := by
  intro xs
  induction xs with
  | nil => intro x hx; simp [List.intersperse] at hx
  | cons a t ih =>
    intro x hx
    cases t with
    | nil => simp at hx; simp [hx]
    | cons b t2 =>
      rw [List.intersperse_cons_cons] at hx
      rcases List.mem_cons.mp hx with h1 | hx2
      · simp [h1]
      · rcases List.mem_cons.mp hx2 with h2 | hx3
        · exact Or.inl h2
        · rcases ih x hx3 with h3 | h4
          · exact Or.inl h3
          · exact Or.inr (by simp [h4])

/-- Characters of an intercalation come from the separator or a chunk. -/
theorem mem_intercalate (sep : List Char) (xs : List (List Char)) (c : Char)
    (h : c ∈ List.intercalate sep xs) : c ∈ sep ∨ ∃ x ∈ xs, c ∈ x := by
  rw [List.intercalate] at h
  rw [List.mem_flatten] at h
  rcases h with ⟨l, hl, hc⟩
  rcases mem_of_mem_intersperse sep xs l hl with h1 | h2
  · rw [h1] at hc
    exact Or.inl hc
  · exact Or.inr ⟨l, h2, hc⟩

/-- Characters of joined cells come from the separator or a cell. -/
theorem mem_joinCells : ∀ (cells : List (List Char)) (c : Char), c ∈ joinCells cells →
    c ∈ " & ".toList ∨ ∃ x ∈ cells, c ∈ x := by
  intro cells
  induction cells with
  | nil => intro c hc; simp [joinCells] at hc
  | cons a cs ih =>
    intro c hc
    cases cs with
    | nil => exact Or.inr ⟨a, by simp, by simpa [joinCells] using hc⟩
    | cons b cs2 =>
      have : joinCells (a :: b :: cs2) = a ++ " & ".toList ++ joinCells (b :: cs2) := rfl
      rw [this] at hc
      rcases List.mem_append.mp hc with h1 | h2
      · rcases List.mem_append.mp h1 with h3 | h4
        · exact Or.inr ⟨a, by simp, h3⟩
        · exact Or.inl h4
      · rcases ih c h2 with h3 | ⟨x, hx, hcx⟩
        · exact Or.inl h3
        · exact Or.inr ⟨x, by simp [hx], hcx⟩

/-- Characters of split chunks come from the split list. -/
theorem mem_splitOnChar_content (sep : Char) : ∀ (l : List Char),
    ∀ m ∈ splitOnChar sep l, ∀ c ∈ m, c ∈ l := by
  intro l
  induction l with
  | nil =>
    intro m hm c hc
    simp [splitOnChar] at hm
    rw [hm] at hc
    simp at hc
  | cons c0 t ih =>
    intro m hm c hc
    rw [splitOnChar] at hm
    by_cases h : c0 = sep
    · rw [if_pos h] at hm
      rcases List.mem_cons.mp hm with h1 | h2
      · rw [h1] at hc; simp at hc
      · simp [ih m h2 c hc]
    · rw [if_neg h] at hm
      cases hsplit : splitOnChar sep t with
      | nil => exact absurd hsplit (splitOnChar_ne_nil sep t)
      | cons m0 ms =>
        rw [hsplit] at hm
        rcases List.mem_cons.mp hm with h1 | h2
        · rw [h1] at hc
          rcases List.mem_cons.mp hc with h3 | h4
          · simp [h3]
          · simp [ih m0 (by rw [hsplit]; simp) c h4]
        · simp [ih m (by rw [hsplit]; simp [h2]) c hc]

/-- Characters of a both-ends strip come from the original. -/
theorem mem_stripChar (ch : Char) (l : List Char) (c : Char) (h : c ∈ stripChar ch l) :
    c ∈ l := by
  rw [stripChar] at h
  rw [List.mem_reverse] at h
  have h2 := (@List.dropWhile_sublist _ ((l.dropWhile (· = ch)).reverse) (· = ch)).mem h
  rw [List.mem_reverse] at h2
  exact (@List.dropWhile_sublist _ l (· = ch)).mem h2

/-- Newline-freedom is preserved by one replacement with a newline-free
replacement string. -/
theorem noNL_replace (pat rep l : List Char) (hr : ('\n' : Char) ∉ rep)
    (hl : ('\n' : Char) ∉ l) : ('\n' : Char) ∉ replaceList pat rep l := by
  intro h
  rcases mem_replaceList pat rep l '\n' h with h1 | h2
  · exact hr h1
  · exact hl h2

/-- Escaping a newline-free line yields a newline-free line. -/
theorem noNL_escape (l : List Char) (hl : ('\n' : Char) ∉ l) :
    ('\n' : Char) ∉ escape_latex l := by
  rw [escape_latex]
  refine noNL_replace _ _ _ (by decide) ?_
  refine noNL_replace _ _ _ (by decide) ?_
  refine noNL_replace _ _ _ (by decide) ?_
  refine noNL_replace _ _ _ (by decide) ?_
  refine noNL_replace _ _ _ (by decide) ?_
  refine noNL_replace _ _ _ (by decide) ?_
  refine noNL_replace _ _ _ (by decide) ?_
  refine noNL_replace _ _ _ (by decide) ?_
  refine noNL_replace _ _ _ (by decide) ?_
  exact noNL_replace _ _ _ (by decide) hl

/-- A fully processed else-line of a newline-free line is newline-free. -/
theorem noNL_processed (l : List Char) (hl : ('\n' : Char) ∉ l) :
    ('\n' : Char) ∉ processedLine l := by
  rw [processedLine]
  refine noNL_replace _ _ _ (by decide) ?_
  refine noNL_replace _ _ _ (by decide) ?_
  refine noNL_replace _ _ _ (by decide) ?_
  refine noNL_replace _ _ _ (by decide) ?_
  refine noNL_replace _ _ _ (by decide) ?_
  refine noNL_replace _ _ _ (by decide) ?_
  exact noNL_escape l hl

/-- Every line emitted by the table converter for newline-free table lines
is newline-free. -/
theorem table_noNL (tbl : List (List Char)) (htbl : ∀ r ∈ tbl, ('\n' : Char) ∉ r) :
    ∀ m ∈ markdown_table_to_latex tbl, ('\n' : Char) ∉ m := by
  have hcells : ∀ row ∈ tbl.map (fun ln => (splitOnChar '|' (stripChar '|' ln)).map pyStrip),
      ∀ cell ∈ row, ('\n' : Char) ∉ cell := by
    intro row hrow cell hcell
    rcases List.mem_map.mp hrow with ⟨ln, hln, heq⟩
    rw [← heq] at hcell
    rcases List.mem_map.mp hcell with ⟨cell0, hcell0, heq2⟩
    intro hnl
    rw [← heq2] at hnl
    exact htbl ln hln
      (mem_stripChar '|' ln '\n' (mem_splitOnChar_content '|' _ cell0 hcell0 '\n'
        (mem_pyStrip cell0 '\n' hnl)))
  have hrowline : ∀ row : List (List Char), (∀ cell ∈ row, ('\n' : Char) ∉ cell) →
      ('\n' : Char) ∉ rowLine row := by
    intro row hrow hnl
    rw [rowLine] at hnl
    rcases List.mem_append.mp hnl with h1 | h2
    · rcases mem_joinCells _ '\n' h1 with h3 | ⟨x, hx, hcx⟩
      · exact absurd h3 (by decide)
      · rcases List.mem_map.mp hx with ⟨cell0, hc0, heq⟩
        rw [← heq] at hcx
        rcases mem_replaceList _ _ _ _ hcx with h4 | hrest
        · exact absurd h4 (by decide)
        · have : ('\n' : Char) ∈ cell0 := by
            have step : ∀ (pat rep prior : List Char), ('\n' : Char) ∉ rep →
                ('\n' : Char) ∈ replaceList pat rep prior → ('\n' : Char) ∈ prior := by
              intro pat rep prior hrep hmem
              rcases mem_replaceList pat rep prior '\n' hmem with ha | hb
              · exact absurd ha hrep
              · exact hb
            rw [escape_latex] at hcx
            exact step _ _ _ (by decide) (step _ _ _ (by decide) (step _ _ _ (by decide)
              (step _ _ _ (by decide) (step _ _ _ (by decide) (step _ _ _ (by decide)
              (step _ _ _ (by decide) (step _ _ _ (by decide) (step _ _ _ (by decide)
              (step _ _ _ (by decide) hcx)))))))))
          exact hrow cell0 hc0 this
    · exact absurd h2 (by decide)
  intro m hm
  rw [markdown_table_to_latex] at hm
  cases hrows : tbl.map (fun ln => (splitOnChar '|' (stripChar '|' ln)).map pyStrip) with
  | nil =>
    rw [hrows] at hm
    simp at hm
  | cons header rest =>
    rw [hrows] at hm
    simp only [List.mem_cons, List.mem_append, List.mem_flatMap,
      List.mem_singleton] at hm
    have hheader : ∀ cell ∈ header, ('\n' : Char) ∉ cell := by
      intro cell hc
      exact hcells header (by rw [hrows]; simp) cell hc
    rcases hm with h1 | h2 | h3 | h4 | ⟨row, hrowmem, hr | hh | hf⟩ | h6 | hf2
    · rw [h1]
      intro hnl
      rcases List.mem_append.mp hnl with ha | hb
      · rcases List.mem_append.mp ha with hc | hd
        · exact absurd hc (by decide)
        · rcases mem_intercalate _ _ _ hd with he | ⟨x, hx, hcx⟩
          · exact absurd he (by decide)
          · rw [List.eq_of_mem_replicate hx] at hcx
            exact absurd hcx (by decide)
      · exact absurd hb (by decide)
    · rw [h2]; decide
    · rw [h3]
      exact hrowline header hheader
    · rw [h4]; decide
    · rw [hr]
      refine hrowline row ?_
      intro cell hc
      have hrow2 : row ∈ header :: rest := by
        cases rest with
        | nil => simp at hrowmem
        | cons r1 rest2 =>
          by_cases hsep : r1.all isSepCell = true
          · rw [if_pos hsep] at hrowmem
            exact (List.drop_sublist _ _).mem hrowmem
          · rw [if_neg hsep] at hrowmem
            simp [hrowmem]
      exact hcells row (by rw [hrows]; exact hrow2) cell hc
    · rw [hh]; decide
    · simp at hf
    · rw [h6]; decide
    · simp at hf2

/-- The fixup loop emits newline-free lines for newline-free input. -/
theorem fixLoop_noNL : ∀ (lines : List (List Char)) (d : Nat),
    (∀ l ∈ lines, ('\n' : Char) ∉ l) → ∀ m ∈ fixLoop lines d, ('\n' : Char) ∉ m := by
  intro lines
  induction lines with
  | nil =>
    intro d _ m hm
    rw [fixLoop] at hm
    rw [List.eq_of_mem_replicate hm]
    decide
  | cons l ls ih =>
    intro d hin m hm
    have hl : ('\n' : Char) ∉ l := hin l (by simp)
    have hls : ∀ x ∈ ls, ('\n' : Char) ∉ x := fun x hx => hin x (by simp [hx])
    have hline : ('\n' : Char) ∉ pyStrip l := fun h => hl (mem_pyStrip l _ h)
    rw [fixLoop] at hm
    split at hm
    · rcases List.mem_cons.mp hm with h1 | h2
      · rw [h1]; simp
      · exact ih d hls m h2
    · split at hm
      · rcases List.mem_cons.mp hm with h1 | h2
        · rw [h1]; exact hline
        · exact ih (d + 1) hls m h2
      · split at hm
        · rcases List.mem_cons.mp hm with h1 | h2
          · rw [h1]; exact hline
          · exact ih (d - 1) hls m h2
        · split at hm
          · split at hm
            · rcases List.mem_cons.mp hm with h1 | h2
              · rw [h1]; decide
              · rcases List.mem_cons.mp h2 with h3 | h4
                · rw [h3]; exact hline
                · exact ih 1 hls m h4
            · rcases List.mem_cons.mp hm with h1 | h2
              · rw [h1]; exact hline
              · exact ih d hls m h2
          · split at hm
            · rcases List.mem_append.mp hm with h1 | h2
              · rw [List.eq_of_mem_replicate h1]; decide
              · rcases List.mem_cons.mp h2 with h3 | h4
                · rw [h3]; exact hline
                · exact ih 0 hls m h4
            · rcases List.mem_cons.mp hm with h1 | h2
              · rw [h1]; exact hline
              · exact ih d hls m h2

/-- The fallback converter loop emits newline-free lines for newline-free
input. -/
theorem simpleLoop_noNL (lines : List (List Char)) (depth : Nat) :
    (∀ l ∈ lines, ('\n' : Char) ∉ l) → ∀ m ∈ simpleLoop lines depth,
      ('\n' : Char) ∉ m := by
  induction lines, depth using simpleLoop.induct with
  | case1 depth =>
    intro _ m hm
    rw [simpleLoop] at hm
    rw [List.eq_of_mem_replicate hm]
    decide
  | case2 depth l ls hblank ih =>
    intro hin m hm
    rw [simpleLoop.eq_def] at hm
    simp only [hblank, if_pos] at hm
    rcases List.mem_cons.mp hm with h1 | h2
    · rw [h1]; simp
    · exact ih (fun x hx => hin x (by simp [hx])) m h2
  | case3 depth l ls hblank htbl ih =>
    intro hin m hm
    have hls : ∀ x ∈ ls, ('\n' : Char) ∉ x := fun x hx => hin x (by simp [hx])
    rw [simpleLoop.eq_def] at hm
    simp only [if_neg hblank, if_pos htbl] at hm
    rw [List.append_assoc] at hm
    rcases List.mem_append.mp hm with h1 | h2
    · rw [List.eq_of_mem_replicate h1]; decide
    · rcases List.mem_append.mp h2 with h3 | h4
      · refine table_noNL _ ?_ m h3
        intro r hr
        rcases List.mem_cons.mp hr with hr1 | hr2
        · rw [hr1]
          exact fun h => hin l (by simp) (mem_pyStrip l _ h)
        · rcases List.mem_map.mp hr2 with ⟨x, hx, heq⟩
          rw [← heq]
          exact fun h =>
            hls x ((List.takeWhile_sublist _).mem hx) (mem_pyStrip x _ h)
      · exact ih (fun x hx => hls x ((List.dropWhile_sublist _).mem hx)) m h4
  | case4 depth l ls hblank htbl hh1 ih =>
    intro hin m hm
    have hls : ∀ x ∈ ls, ('\n' : Char) ∉ x := fun x hx => hin x (by simp [hx])
    rw [simpleLoop.eq_def] at hm
    simp only [if_neg hblank, if_neg htbl, if_pos hh1] at hm
    rcases List.mem_append.mp hm with h1 | h2
    · rw [List.eq_of_mem_replicate h1]; decide
    · rcases List.mem_cons.mp h2 with h3 | h4
      · rw [h3]
        intro hnl
        rcases List.mem_append.mp hnl with ha | hb
        · rcases List.mem_append.mp ha with hc | hd
          · exact absurd hc (by decide)
          · exact hin l (by simp)
              (mem_pyStrip l _ ((List.drop_sublist _ _).mem hd))
        · exact absurd hb (by decide)
      · exact ih hls m h4
  | case5 depth l ls hblank htbl hh1 hh2 ih =>
    intro hin m hm
    have hls : ∀ x ∈ ls, ('\n' : Char) ∉ x := fun x hx => hin x (by simp [hx])
    rw [simpleLoop.eq_def] at hm
    simp only [if_neg hblank, if_neg htbl, if_neg hh1, if_pos hh2] at hm
    rcases List.mem_append.mp hm with h1 | h2
    · rw [List.eq_of_mem_replicate h1]; decide
    · rcases List.mem_cons.mp h2 with h3 | h4
      · rw [h3]
        intro hnl
        rcases List.mem_append.mp hnl with ha | hb
        · rcases List.mem_append.mp ha with hc | hd
          · exact absurd hc (by decide)
          · exact hin l (by simp)
              (mem_pyStrip l _ ((List.drop_sublist _ _).mem hd))
        · exact absurd hb (by decide)
      · exact ih hls m h4
  | case6 depth l ls hblank htbl hh1 hh2 hh3 ih =>
    intro hin m hm
    have hls : ∀ x ∈ ls, ('\n' : Char) ∉ x := fun x hx => hin x (by simp [hx])
    rw [simpleLoop.eq_def] at hm
    simp only [if_neg hblank, if_neg htbl, if_neg hh1, if_neg hh2, if_pos hh3] at hm
    rcases List.mem_append.mp hm with h1 | h2
    · rw [List.eq_of_mem_replicate h1]; decide
    · rcases List.mem_cons.mp h2 with h3 | h4
      · rw [h3]
        intro hnl
        rcases List.mem_append.mp hnl with ha | hb
        · rcases List.mem_append.mp ha with hc | hd
          · exact absurd hc (by decide)
          · exact hin l (by simp)
              (mem_pyStrip l _ ((List.drop_sublist _ _).mem hd))
        · exact absurd hb (by decide)
      · exact ih hls m h4
  | case7 l ls hblank htbl hh1 hh2 hh3 hitem ih =>
    intro hin m hm
    have hls : ∀ x ∈ ls, ('\n' : Char) ∉ x := fun x hx => hin x (by simp [hx])
    rw [simpleLoop.eq_def] at hm
    simp only [if_neg hblank, if_neg htbl, if_neg hh1, if_neg hh2, if_neg hh3,
      if_pos hitem, if_pos rfl] at hm
    rcases List.mem_cons.mp hm with h1 | h2
    · rw [h1]; decide
    · rcases List.mem_cons.mp h2 with h3 | h4
      · rw [h3]
        intro hnl
        rcases List.mem_append.mp hnl with ha | hb
        · exact absurd ha (by decide)
        · exact hin l (by simp) (mem_pyStrip l _ ((List.drop_sublist _ _).mem hb))
      · exact ih hls m h4
  | case8 depth l ls hblank htbl hh1 hh2 hh3 hitem hdep ih =>
    intro hin m hm
    have hls : ∀ x ∈ ls, ('\n' : Char) ∉ x := fun x hx => hin x (by simp [hx])
    rw [simpleLoop.eq_def] at hm
    simp only [if_neg hblank, if_neg htbl, if_neg hh1, if_neg hh2, if_neg hh3,
      if_pos hitem, if_neg hdep] at hm
    rcases List.mem_cons.mp hm with h3 | h4
    · rw [h3]
      intro hnl
      rcases List.mem_append.mp hnl with ha | hb
      · exact absurd ha (by decide)
      · exact hin l (by simp) (mem_pyStrip l _ ((List.drop_sublist _ _).mem hb))
    · exact ih hls m h4
  | case9 depth l ls hblank htbl hh1 hh2 hh3 hitem hbold ih =>
    intro hin m hm
    have hls : ∀ x ∈ ls, ('\n' : Char) ∉ x := fun x hx => hin x (by simp [hx])
    rw [simpleLoop.eq_def] at hm
    simp only [if_neg hblank, if_neg htbl, if_neg hh1, if_neg hh2, if_neg hh3,
      if_neg hitem, if_pos hbold] at hm
    rcases List.mem_cons.mp hm with h3 | h4
    · rw [h3]
      intro hnl
      rcases List.mem_append.mp hnl with ha | hb
      · rcases List.mem_append.mp ha with hc | hd
        · exact absurd hc (by decide)
        · rcases mem_replaceList _ _ _ _ hd with he | hf
          · simp at he
          · rcases mem_replaceList _ _ _ _ hf with hg | hh
            · simp at hg
            · exact hin l (by simp)
                (mem_pyStrip l _ ((List.drop_sublist _ _).mem
                  ((List.take_sublist _ _).mem hh)))
      · exact absurd hb (by decide)
    · exact ih hls m h4
  | case10 depth l ls hblank htbl hh1 hh2 hh3 hitem hbold htt ih =>
    intro hin m hm
    have hls : ∀ x ∈ ls, ('\n' : Char) ∉ x := fun x hx => hin x (by simp [hx])
    rw [simpleLoop.eq_def] at hm
    simp only [if_neg hblank, if_neg htbl, if_neg hh1, if_neg hh2, if_neg hh3,
      if_neg hitem, if_neg hbold, if_pos htt] at hm
    rcases List.mem_cons.mp hm with h3 | h4
    · rw [h3]
      intro hnl
      rcases List.mem_append.mp hnl with ha | hb
      · rcases List.mem_append.mp ha with hc | hd
        · exact absurd hc (by decide)
        · exact hin l (by simp)
            (mem_pyStrip l _ ((List.drop_sublist _ _).mem
              ((List.take_sublist _ _).mem hd)))
      · exact absurd hb (by decide)
    · exact ih hls m h4
  | case11 depth l ls hblank htbl hh1 hh2 hh3 hitem hbold htt hdash ih =>
    intro hin m hm
    have hls : ∀ x ∈ ls, ('\n' : Char) ∉ x := fun x hx => hin x (by simp [hx])
    rw [simpleLoop.eq_def] at hm
    simp only [if_neg hblank, if_neg htbl, if_neg hh1, if_neg hh2, if_neg hh3,
      if_neg hitem, if_neg hbold, if_neg htt, if_pos hdash] at hm
    rcases List.mem_cons.mp hm with h1 | h2
    · rw [h1]; decide
    · rcases List.mem_cons.mp h2 with h3 | h4
      · rw [h3]; decide
      · rcases List.mem_cons.mp h4 with h5 | h6
        · rw [h5]; decide
        · exact ih hls m h6
  | case12 depth l ls hblank htbl hh1 hh2 hh3 hitem hbold htt hdash ih =>
    intro hin m hm
    have hls : ∀ x ∈ ls, ('\n' : Char) ∉ x := fun x hx => hin x (by simp [hx])
    rw [simpleLoop.eq_def] at hm
    simp only [if_neg hblank, if_neg htbl, if_neg hh1, if_neg hh2, if_neg hh3,
      if_neg hitem, if_neg hbold, if_neg htt, if_neg hdash] at hm
    rcases List.mem_cons.mp hm with h3 | h4
    · rw [h3]
      exact noNL_processed _ (fun h => hin l (by simp) (mem_pyStrip l _ h))
    · exact ih hls m h4

/-- The fixup loop never returns an empty line list for a nonempty input. -/
theorem fixLoop_cons_ne_nil (l : List Char) (ls : List (List Char)) (d : Nat) :
    fixLoop (l :: ls) d ≠ [] := by
  rw [fixLoop]
  repeat' split
  all_goals simp

/-- The fallback converter loop never returns an empty line list for a
nonempty input. -/
theorem simpleLoop_cons_ne_nil (l : List Char) (ls : List (List Char)) (d : Nat) :
    simpleLoop (l :: ls) d ≠ [] := by
  rw [simpleLoop.eq_def]
  repeat' split
  all_goals first
    | (intro h9
       rcases List.append_eq_nil.mp h9 with ⟨h91, h92⟩
       rcases List.append_eq_nil.mp h91 with ⟨h93, h94⟩
       rw [markdown_table_to_latex] at h94
       simp at h94)
    | simp_all

/-- Claim C10, counterexample — an input consisting of the single line
`\end{itemize}` passes through `_fix_itemize_environments` unchanged, so
the output has one `\end{itemize}` line and no `\begin{itemize}` line:
the begin/end counts differ and the one-line prefix already violates the
prefix property.  Likewise `_simple_markdown_to_latex` turns the header
`# a\end{itemize}` into the single line `\section{a\end{itemize}}`, which
carries an `\end{itemize}` with no matching begin. -/
theorem itemize_balance_c10_counterexample :
    fix_itemize_environments "\\end\x7bitemize\x7d" = "\\end\x7bitemize\x7d"
      ∧ List.countP isEndC (fixLoop (splitOnChar '\n' "\\end\x7bitemize\x7d".toList) 0) = 1
      ∧ List.countP isBeginC (fixLoop (splitOnChar '\n' "\\end\x7bitemize\x7d".toList) 0) = 0
      ∧ simple_markdown_to_latex "# a\\end\x7bitemize\x7d" = "\\section\x7ba\\end\x7bitemize\x7d\x7d"
      ∧ List.countP isEndC
          (simpleLoop (splitOnChar '\n' "# a\\end\x7bitemize\x7d".toList) 0) = 1
      ∧ List.countP isBeginC
          (simpleLoop (splitOnChar '\n' "# a\\end\x7bitemize\x7d".toList) 0) = 0 := by
  have h0 : simpleLoop [] 0 = [] := by rw [simpleLoop.eq_def]; rfl
  have hs : simpleLoop (splitOnChar '\n' "# a\\end\x7bitemize\x7d".toList) 0
      = ["\\section\x7ba\\end\x7bitemize\x7d\x7d".toList] := by
    have hsplit : splitOnChar '\n' "# a\\end\x7bitemize\x7d".toList
        = ["# a\\end\x7bitemize\x7d".toList] := by decide
    rw [hsplit, simpleLoop.eq_def]
    simp only [h0]
    decide
  refine ⟨rfl, by decide, by decide, ?_, ?_, ?_⟩
  · show String.mk (joinLines '\n'
      (simpleLoop (splitOnChar '\n' "# a\\end\x7bitemize\x7d".toList) 0)) = _
    rw [hs]
    rfl
  · rw [hs]; decide
  · rw [hs]; decide

/-- Claim C10, amended — the fallback converter's itemize environments are
balanced, in the following sense.  For `_fix_itemize_environments`,
provided no stripped input line already contains an `\end{itemize}` marker
(pre-existing closers pass through unchanged and can be orphaned, see the
counterexample), the lines of the output string satisfy: the number of
lines containing `\begin{itemize}` equals the number of lines containing
`\end{itemize}` (classified as the code does, a line containing both counts
as a begin), every prefix has at least as many begins as ends, and every
`\item` line lies inside an open environment.  For
`_simple_markdown_to_latex`, unconditionally, the same holds for the
itemize marker lines the converter itself emits (lines exactly equal to
`\begin{itemize}`/`\end{itemize}`) and the `\item`-prefixed lines; marker
text carried inside source markdown (e.g. in a header) passes through
verbatim inside `\section{...}`/`\textbf{...}` arguments and is outside
this guarantee, see the counterexample. -/
theorem itemize_environments_balanced (s₁ s₂ : String)
    (hfix : ∀ l ∈ splitOnChar '\n' s₁.toList, hasSubstr endItemize (pyStrip l) = false) :
    (splitOnChar '\n' (fix_itemize_environments s₁).toList
        = fixLoop (splitOnChar '\n' s₁.toList) 0
      ∧ List.countP isEndC (splitOnChar '\n' (fix_itemize_environments s₁).toList)
          = List.countP isBeginC (splitOnChar '\n' (fix_itemize_environments s₁).toList)
      ∧ (∀ n, List.countP isEndC ((splitOnChar '\n' (fix_itemize_environments s₁).toList).take n)
          ≤ List.countP isBeginC ((splitOnChar '\n' (fix_itemize_environments s₁).toList).take n))
      ∧ (∀ n l, (splitOnChar '\n' (fix_itemize_environments s₁).toList)[n]? = some l →
          isItemC l = true →
          List.countP isEndC ((splitOnChar '\n' (fix_itemize_environments s₁).toList).take n)
            < List.countP isBeginC
                ((splitOnChar '\n' (fix_itemize_environments s₁).toList).take n)))
    ∧ (splitOnChar '\n' (simple_markdown_to_latex s₂).toList
        = simpleLoop (splitOnChar '\n' s₂.toList) 0
      ∧ List.countP isEndX (splitOnChar '\n' (simple_markdown_to_latex s₂).toList)
          = List.countP isBeginX (splitOnChar '\n' (simple_markdown_to_latex s₂).toList)
      ∧ (∀ n, List.countP isEndX ((splitOnChar '\n' (simple_markdown_to_latex s₂).toList).take n)
          ≤ List.countP isBeginX ((splitOnChar '\n' (simple_markdown_to_latex s₂).toList).take n))
      ∧ (∀ n l, (splitOnChar '\n' (simple_markdown_to_latex s₂).toList)[n]? = some l →
          isItemX l = true →
          List.countP isEndX ((splitOnChar '\n' (simple_markdown_to_latex s₂).toList).take n)
            < List.countP isBeginX
                ((splitOnChar '\n' (simple_markdown_to_latex s₂).toList).take n))) := by
  have hL : splitOnChar '\n' (fix_itemize_environments s₁).toList
      = fixLoop (splitOnChar '\n' s₁.toList) 0 := by
    have hnl : ∀ m ∈ fixLoop (splitOnChar '\n' s₁.toList) 0, ('\n' : Char) ∉ m :=
      fixLoop_noNL _ 0 (fun l hl => splitOnChar_not_mem '\n' _ l hl)
    have hne : fixLoop (splitOnChar '\n' s₁.toList) 0 ≠ [] := by
      cases hsplit : splitOnChar '\n' s₁.toList with
      | nil => exact absurd hsplit (splitOnChar_ne_nil '\n' _)
      | cons a b => exact fixLoop_cons_ne_nil a b 0
    exact splitOnChar_joinLines '\n' _ hne hnl
  have hM : splitOnChar '\n' (simple_markdown_to_latex s₂).toList
      = simpleLoop (splitOnChar '\n' s₂.toList) 0 := by
    have hnl : ∀ m ∈ simpleLoop (splitOnChar '\n' s₂.toList) 0, ('\n' : Char) ∉ m :=
      simpleLoop_noNL _ 0 (fun l hl => splitOnChar_not_mem '\n' _ l hl)
    have hne : simpleLoop (splitOnChar '\n' s₂.toList) 0 ≠ [] := by
      cases hsplit : splitOnChar '\n' s₂.toList with
      | nil => exact absurd hsplit (splitOnChar_ne_nil '\n' _)
      | cons a b => exact simpleLoop_cons_ne_nil a b 0
    exact splitOnChar_joinLines '\n' _ hne hnl
  have hCfacts := scanOk_balance isBeginC isEndC isItemC
    (fun l h => by simp only [isEndC]; simp only [isBeginC] at h; simp [h])
    (fun l h => by simp only [isItemC]; simp only [isBeginC] at h; simp [h])
    (fun l h => by
      simp only [isItemC]
      simp only [isEndC, Bool.and_eq_true] at h
      simp [h.2])
    (fixLoop (splitOnChar '\n' s₁.toList) 0) 0 (fixLoop_scanOk _ 0 hfix)
  have hXfacts := scanOk_balance isBeginX isEndX isItemX
    (fun l h => by
      simp only [isBeginX, decide_eq_true_eq] at h
      simp [isEndX, h]
      decide)
    (fun l h => by
      simp only [isBeginX, decide_eq_true_eq] at h
      simp only [isItemX, h]
      decide)
    (fun l h => by
      simp only [isEndX, decide_eq_true_eq] at h
      simp only [isItemX, h]
      decide)
    (simpleLoop (splitOnChar '\n' s₂.toList) 0) 0 (simpleLoop_scanOk _ 0)
  obtain ⟨ha1, hb1, hc1⟩ := hCfacts
  obtain ⟨ha2, hb2, hc2⟩ := hXfacts
  rw [hL, hM]
  refine ⟨⟨rfl, by simpa using ha1, fun n => by simpa using hb1 n,
    fun n l h1 h2 => by simpa using hc1 n l h1 h2⟩,
    ⟨rfl, by simpa using ha2, fun n => by simpa using hb2 n,
    fun n l h1 h2 => by simpa using hc2 n l h1 h2⟩⟩

/-- Witness for the amended C10 theorem: a markdown item list for the
fixer (no pre-existing `\end{itemize}`) and a small markdown document for
the fallback converter. -/
theorem itemize_environments_balanced_witness :
    (splitOnChar '\n' (fix_itemize_environments "\\item a\n\\section\x7bT\x7d").toList
        = fixLoop (splitOnChar '\n' ("\\item a\n\\section\x7bT\x7d" : String).toList) 0
      ∧ List.countP isEndC
          (splitOnChar '\n' (fix_itemize_environments "\\item a\n\\section\x7bT\x7d").toList)
          = List.countP isBeginC
              (splitOnChar '\n' (fix_itemize_environments "\\item a\n\\section\x7bT\x7d").toList)
      ∧ (∀ n, List.countP isEndC ((splitOnChar '\n'
            (fix_itemize_environments "\\item a\n\\section\x7bT\x7d").toList).take n)
          ≤ List.countP isBeginC ((splitOnChar '\n'
              (fix_itemize_environments "\\item a\n\\section\x7bT\x7d").toList).take n))
      ∧ (∀ n l, (splitOnChar '\n'
            (fix_itemize_environments "\\item a\n\\section\x7bT\x7d").toList)[n]? = some l →
          isItemC l = true →
          List.countP isEndC ((splitOnChar '\n'
              (fix_itemize_environments "\\item a\n\\section\x7bT\x7d").toList).take n)
            < List.countP isBeginC ((splitOnChar '\n'
                (fix_itemize_environments "\\item a\n\\section\x7bT\x7d").toList).take n)))
    ∧ (splitOnChar '\n' (simple_markdown_to_latex "# T\n- a\n- b\ntext").toList
        = simpleLoop (splitOnChar '\n' ("# T\n- a\n- b\ntext" : String).toList) 0
      ∧ List.countP isEndX
          (splitOnChar '\n' (simple_markdown_to_latex "# T\n- a\n- b\ntext").toList)
          = List.countP isBeginX
              (splitOnChar '\n' (simple_markdown_to_latex "# T\n- a\n- b\ntext").toList)
      ∧ (∀ n, List.countP isEndX ((splitOnChar '\n'
            (simple_markdown_to_latex "# T\n- a\n- b\ntext").toList).take n)
          ≤ List.countP isBeginX ((splitOnChar '\n'
              (simple_markdown_to_latex "# T\n- a\n- b\ntext").toList).take n))
      ∧ (∀ n l, (splitOnChar '\n'
            (simple_markdown_to_latex "# T\n- a\n- b\ntext").toList)[n]? = some l →
          isItemX l = true →
          List.countP isEndX ((splitOnChar '\n'
              (simple_markdown_to_latex "# T\n- a\n- b\ntext").toList).take n)
            < List.countP isBeginX ((splitOnChar '\n'
                (simple_markdown_to_latex "# T\n- a\n- b\ntext").toList).take n))) :=
  itemize_environments_balanced "\\item a\n\\section\x7bT\x7d" "# T\n- a\n- b\ntext"
    (by decide)

end BidSpec
